import Mathlib

/-!
Verification of the dungeon-generation core (src/generate.py, src/game/grid.py).

The Python code is shallowly embedded: pure functions become Lean functions,
the mutable tile array becomes an explicitly threaded index-to-value function,
and the ambient random source (gaussian draws of `random.gauss` and the
uniform draws of `random.random`) is threaded as explicit rational / boolean
arguments, with the deterministic clamping of `nrand` reproduced exactly.
Python integer semantics are modelled on `Int`; Python `//` (floor division,
used only with positive divisors) is `Int.ediv`, and Python `int()` applied
to a rational (truncation toward zero) is `pyInt`.
-/

set_option maxHeartbeats 1000000

namespace Dungeon

/-- 2D integer vector, modelling `pixpy.Int2` (componentwise arithmetic). -/
structure Int2 where
  x : Int
  y : Int
deriving DecidableEq

instance : Add Int2 where
  add a b := ⟨a.x + b.x, a.y + b.y⟩

instance : Sub Int2 where
  sub a b := ⟨a.x - b.x, a.y - b.y⟩

/-- Vector times scalar, modelling `Int2 * int`. -/
def Int2.smul (a : Int2) (k : Int) : Int2 := ⟨a.x * k, a.y * k⟩

/-- `Int2.ZERO`. -/
def Int2.zero : Int2 := ⟨0, 0⟩

@[simp] theorem Int2.add_x (a b : Int2) : (a + b).x = a.x + b.x := rfl

@[simp] theorem Int2.add_y (a b : Int2) : (a + b).y = a.y + b.y := rfl

/-- Direction constants from grid.py (cyclic clockwise). -/
def TOP : ℕ := 0

/-- Direction constant RIGHT. -/
def RIGHT : ℕ := 1

/-- Direction constant BOTTOM. -/
def BOTTOM : ℕ := 2

/-- Direction constant LEFT. -/
def LEFT : ℕ := 3

/-- `DELTAS` table from grid.py: step vector of each direction.  Directions are
always masked into `0..3` before indexing (Python `& 3` is `% 4` here). -/
def DELTAS (i : ℕ) : Int2 :=
  match i % 4 with
  | 0 => ⟨1, 0⟩
  | 1 => ⟨0, 1⟩
  | 2 => ⟨-1, 0⟩
  | _ => ⟨0, -1⟩

/-- `Edge` of a rectangle: origin, length, direction (grid.py). -/
structure Edge where
  pos : Int2
  l : Int
  dir : ℕ
deriving DecidableEq

/-- `Edge.delta`. -/
def Edge.delta (e : Edge) : Int2 := DELTAS e.dir

/-- `Edge.mid`: `pos + delta * (l // 2)`. -/
def Edge.mid (e : Edge) : Int2 := e.pos + e.delta.smul (Int.ediv e.l 2)

/-- `Edge.endp`: `pos + delta * l`. -/
def Edge.endp (e : Edge) : Int2 := e.pos + e.delta.smul e.l

/-- `Edge.norm`: outward normal, `DELTAS[(dir - 1) & 3]`. -/
def Edge.norm (e : Edge) : Int2 := DELTAS ((e.dir + 3) % 4)

/-- `Edge.is_horiz`. -/
def Edge.isHoriz (e : Edge) : Bool := e.dir == TOP || e.dir == BOTTOM

/-- `Edge.is_vert`. -/
def Edge.isVert (e : Edge) : Bool := e.dir == LEFT || e.dir == RIGHT

/-- `project(a, b)` from grid.py: the part of edge `a` overlapping opposing
edge `b`, or `none`. -/
def project (a b : Edge) : Option Edge :=
  if a.dir = b.dir then none
  else if a.isHoriz && b.isHoriz then
    let s := if a.dir = TOP then max a.pos.x b.endp.x else min a.pos.x b.endp.x
    let e := if a.dir = TOP then min a.endp.x b.pos.x else max a.endp.x b.pos.x
    if e > s ∧ a.dir = TOP then some ⟨⟨s, a.pos.y⟩, e - s, a.dir⟩
    else if e < s ∧ a.dir = BOTTOM then some ⟨⟨s, a.pos.y⟩, s - e, a.dir⟩
    else none
  else if a.isVert && b.isVert then
    let s := if a.dir = RIGHT then max a.pos.y b.endp.y else min a.pos.y b.endp.y
    let e := if a.dir = RIGHT then min a.endp.y b.pos.y else max a.endp.y b.pos.y
    if e > s ∧ a.dir = RIGHT then some ⟨⟨a.pos.x, s⟩, e - s, a.dir⟩
    else if e < s ∧ a.dir = LEFT then some ⟨⟨a.pos.x, s⟩, s - e, a.dir⟩
    else none
  else none

/-- `Rect` from grid.py. -/
structure Rect where
  x : Int
  y : Int
  w : Int
  h : Int
deriving DecidableEq

/-- `Rect.xy`. -/
def Rect.xy (r : Rect) : Int2 := ⟨r.x, r.y⟩

/-- `Rect.edge(dir)`. -/
def Rect.edge (r : Rect) (dir : ℕ) : Edge :=
  if dir = TOP then ⟨r.xy, r.w, dir⟩
  else if dir = RIGHT then ⟨r.xy + ⟨r.w - 1, 0⟩, r.h, dir⟩
  else if dir = BOTTOM then ⟨r.xy + ⟨r.w - 1, r.h - 1⟩, r.w, dir⟩
  else ⟨r.xy + ⟨0, r.h - 1⟩, r.h, dir⟩

/-- `Rect.top_edge`. -/
def Rect.topEdge (r : Rect) : Edge := r.edge TOP

/-- `Rect.bottom_edge`. -/
def Rect.bottomEdge (r : Rect) : Edge := r.edge BOTTOM

/-- `Rect.left_edge`. -/
def Rect.leftEdge (r : Rect) : Edge := r.edge LEFT

/-- `Rect.right_edge`. -/
def Rect.rightEdge (r : Rect) : Edge := r.edge RIGHT

/-- `Rect.center`. -/
def Rect.center (r : Rect) : Int2 := ⟨r.x + Int.ediv r.w 2, r.y + Int.ediv r.h 2⟩

/-- `Rect.x1`. -/
def Rect.x1 (r : Rect) : Int := r.x + r.w

/-- `Rect.y1`. -/
def Rect.y1 (r : Rect) : Int := r.y + r.h

/-- `intervals_overlap_strict` from grid.py. -/
def intervalsOverlapStrict (a0 a1 b0 b1 : Int) : Bool := min a1 b1 > max a0 b0

/-- `Rect.touches_along_edge` from grid.py. -/
def Rect.touchesAlongEdge (a b : Rect) : Bool :=
  if a.x1 = b.x || a.x = b.x1 then intervalsOverlapStrict a.y a.y1 b.y b.y1
  else if a.y = b.y1 || a.y1 = b.y then intervalsOverlapStrict a.x a.x1 b.x b.x1
  else false

/-- Cells covered by a rectangle (`x ≤ px < x + w`, `y ≤ py < y + h`), as
filled by `draw_rooms`. -/
def Rect.covers (r : Rect) (p : Int2) : Prop :=
  r.x ≤ p.x ∧ p.x < r.x + r.w ∧ r.y ≤ p.y ∧ p.y < r.y + r.h

instance (r : Rect) (p : Int2) : Decidable (r.covers p) := by
  unfold Rect.covers; infer_instance

/-- Python `int()` applied to a rational: truncation toward zero. -/
def pyInt (q : ℚ) : Int := q.num.tdiv q.den

/-- `nrand(avg, var, limit)` from generate.py, with the `random.gauss(avg, var)`
draw threaded explicitly as `g`: the result is
`min(max(g, avg - limit), avg + limit)`.  The variance argument only shapes the
distribution of `g`; the clamp itself is deterministic. -/
def nrand (g avg variance limit : ℚ) : ℚ :=
  min (max g (avg - limit)) (avg + limit)

/-- `HORIZ` axis tag from generate.py. -/
def HORIZ : Int := 1

/-- `VERT` axis tag from generate.py. -/
def VERT : Int := 2

/-- `dist(a, b)` from generate.py: Manhattan distance. -/
def dist (a b : Int2) : Int := |a.x - b.x| + |a.y - b.y|

/-- `Node.split(axis)` from generate.py, returning the two child rectangles.
`axis = 0` auto-chooses (horizontal if `h > w`); the split fraction is
`nrand(0.5, 0.15, 0.35)` with gaussian draw `g`, and the split amount is
`int(v * dimension)`. -/
def splitRect (r : Rect) (axis : Int) (g : ℚ) : Rect × Rect :=
  let ax := if axis = 0 then (if r.h > r.w then HORIZ else VERT) else axis
  let v := nrand g (1 / 2) (3 / 20) (7 / 20)
  if ax = HORIZ then
    let a := pyInt (v * (r.h : ℚ))
    (⟨r.x, r.y, r.w, a⟩, ⟨r.x, r.y + a, r.w, r.h - a⟩)
  else
    let a := pyInt (v * (r.w : ℚ))
    (⟨r.x, r.y, a, r.h⟩, ⟨r.x + a, r.y, r.w - a, r.h⟩)

/-- BSP tree: a `Node` from generate.py either is a leaf or has exactly two
children. -/
inductive BTree where
  | leaf (rect : Rect)
  | node (rect : Rect) (left : BTree) (right : BTree)
deriving DecidableEq

/-- Leaf rectangles of a BSP tree, left to right (`get_rects`/`get_leaves`). -/
def BTree.leaves : BTree → List Rect
  | .leaf r => [r]
  | .node _ l r => l.leaves ++ r.leaves

/-- Whether a BSP tree is a single leaf. -/
def BTree.isLeaf : BTree → Bool
  | .leaf _ => true
  | .node _ _ _ => false

/-- `generate_tree(root, min_size)` from generate.py.  The gaussian draws of
the successive `split()` calls are the stream `rs`, consumed left to right
(`k` is the next unconsumed index).  `fuel` bounds the recursion depth; the
Python recursion needs no such bound because with `min_size ≥ 1` every
accepted child is strictly smaller than its parent. -/
def generateTree (minSize : Int) (rs : ℕ → ℚ) : ℕ → Rect → ℕ → BTree × ℕ
  | 0, root, k => (.leaf root, k)
  | fuel + 1, root, k =>
    let c := splitRect root 0 (rs k)
    if minSize ≤ c.1.w ∧ minSize ≤ c.1.h ∧ minSize ≤ c.2.w ∧ minSize ≤ c.2.h then
      let l := generateTree minSize rs fuel c.1 (k + 1)
      let r := generateTree minSize rs fuel c.2 l.2
      (.node root l.1 r.1, r.2)
    else (.leaf root, k + 1)

/-- Body of `Map.shrink_rooms` for one room rectangle.  Each side shrinks when
its `random.random() < shrink_chance` draw succeeds (`b1..b4`, in source
order left, right, top, bottom), by `int(nrand(0.25, 0.05, 0.15) * dim)` with
gaussian draws `g1..g4`. -/
def shrinkRect (r : Rect) (b1 b2 b3 b4 : Bool) (g1 g2 g3 g4 : ℚ) : Rect :=
  let r1 := if b1 then
      let s := pyInt (nrand g1 (1 / 4) (1 / 20) (3 / 20) * (r.w : ℚ))
      Rect.mk (r.x + s) r.y (r.w - s) r.h
    else r
  let r2 := if b2 then
      let s := pyInt (nrand g2 (1 / 4) (1 / 20) (3 / 20) * (r1.w : ℚ))
      Rect.mk r1.x r1.y (r1.w - s) r1.h
    else r1
  let r3 := if b3 then
      let s := pyInt (nrand g3 (1 / 4) (1 / 20) (3 / 20) * (r2.h : ℚ))
      Rect.mk r2.x (r2.y + s) r2.w (r2.h - s)
    else r2
  if b4 then
    let s := pyInt (nrand g4 (1 / 4) (1 / 20) (3 / 20) * (r3.h : ℚ))
    Rect.mk r3.x r3.y r3.w (r3.h - s)
  else r3

/-- `Room` from generate.py: an ordered list of rectangles plus the set of
connected room indices. -/
structure Room where
  rects : List Rect
  connections : Finset ℕ
deriving DecidableEq

/-- Default room for (never taken in-range) list accesses. -/
def defaultRoom : Room := ⟨[], ∅⟩

/-- One inner step of `merge_rooms` for an ordered pair `(i, j)`: if `i ≠ j`,
room `j` is non-empty, and some rectangle of room `i` (scanned over a snapshot
of its list) touches some rectangle of room `j` along an edge, then room `j`'s
rectangles are appended to room `i` and room `j` is emptied.  Python breaks
out of the inner scan right after the transfer and later snapshot entries see
the emptied room `j`, so one conditional transfer is the step's net effect. -/
def mergeStep (rooms : List Room) (i j : ℕ) : List Room :=
  let ri := rooms.getD i defaultRoom
  let rj := rooms.getD j defaultRoom
  if i ≠ j ∧ rj.rects ≠ []
      ∧ ri.rects.any (fun r1 => rj.rects.any (fun r2 => r1.touchesAlongEdge r2)) then
    (rooms.set i ⟨ri.rects ++ rj.rects, ri.connections⟩).set j ⟨[], rj.connections⟩
  else rooms

/-- `Map.merge_rooms`: a single forward pass over all ordered pairs `(i, j)`,
then the emptied rooms are dropped — surviving rooms keep their relative
order, so their positions in the compacted list renumber them contiguously. -/
def mergeRooms (rooms : List Room) : List Room :=
  let n := rooms.length
  let merged := (List.range n).foldl
    (fun acc i => (List.range n).foldl (fun acc2 j => mergeStep acc2 i j) acc) rooms
  merged.filter (fun room => !room.rects.isEmpty)

/-- The flat tile array of a `Map` (`array.array` of `width * height` cells),
modelled as a total map from flat index to tile value; `plot` writes at
`p.x + p.y * width` exactly as `Map.plot` computes its index. -/
abbrev Tiles := Int → Int

/-- `Map.plot(p, v)`. -/
def plot (width : Int) (t : Tiles) (p : Int2) (v : Int) : Tiles :=
  Function.update t (p.x + p.y * width) v

/-- The first carve loop of `join_rects`
(`while p.y != y: plot(p, 1); p += proj.norm`), with the iteration count made
explicit: under the branch guard the projection's normal is `(0, -1)` and the
Python loop terminates after exactly `start.y - y` iterations, which callers
supply as the fuel. -/
def carveLoopY (width : Int) (norm : Int2) (y : Int) : ℕ → Int2 → Tiles → Tiles
  | 0, _, t => t
  | fuel + 1, p, t =>
    if p.y = y then t else carveLoopY width norm y fuel (p + norm) (plot width t p 1)

/-- The second carve loop of `join_rects`
(`while p.x != x: plot(p, 1); p += proj.norm`); under its guard the normal is
`(-1, 0)` and the loop runs exactly `start.x - x` times. -/
def carveLoopX (width : Int) (norm : Int2) (x : Int) : ℕ → Int2 → Tiles → Tiles
  | 0, _, t => t
  | fuel + 1, p, t =>
    if p.x = x then t else carveLoopX width norm x fuel (p + norm) (plot width t p 1)

/-- `Map.ldraw(a, b)`: prints a debug line and returns before its dead drawing
loops — a no-op on the tile grid. -/
def ldraw (width : Int) (a b : Edge) (t : Tiles) : Tiles := t

/-- Stable insertion into a `le`-sorted list, modelling Python `sorted`. -/
def insertBy {α : Type} (le : α → α → Bool) (x : α) : List α → List α
  | [] => [x]
  | y :: ys => if le x y then x :: y :: ys else y :: insertBy le x ys

/-- Sorting by `le` (insertion sort).  Every use compares by a total order on
which Python's sort is deterministic, except the weight-only candidate-edge
sort whose tie order Python itself leaves unspecified (set iteration order). -/
def sortBy {α : Type} (le : α → α → Bool) : List α → List α
  | [] => []
  | x :: xs => insertBy le x (sortBy le xs)

/-- Lexicographic comparison of the `(distance, i, j)` tuples that
`join_rects` sorts (Python tuple comparison). -/
def fallbackLe (u v : Int × ℕ × ℕ) : Bool :=
  u.1 < v.1 || (u.1 == v.1 && (u.2.1 < v.2.1 || (u.2.1 == v.2.1 && decide (u.2.2 ≤ v.2.2))))

/-- The fallback candidate list of `join_rects`: for each direction `i` of
`A`, the two non-opposing directions `(i - 1) & 3` and `(i + 1) & 3` of `B`,
keyed by Manhattan distance between edge midpoints. -/
def fallbackPairs (a b : Rect) : List (Int × ℕ × ℕ) :=
  (List.range 4).foldr
    (fun i acc =>
      (dist (a.edge i).mid (b.edge ((i + 3) % 4)).mid, i, (i + 3) % 4)
        :: (dist (a.edge i).mid (b.edge ((i + 1) % 4)).mid, i, (i + 1) % 4) :: acc)
    []

/-- Fallback branch of `join_rects`: rank the edge pairs by midpoint distance
and hand the minimal pair to `ldraw` (which is a no-op). -/
def joinRectsFallback (width : Int) (a b : Rect) (t : Tiles) : Tiles :=
  match sortBy fallbackLe (fallbackPairs a b) with
  | [] => t
  | (_, i, j) :: _ => ldraw width (a.edge i) (b.edge j) t

/-- Second direct-carve attempt of `join_rects`: project `A`'s left edge onto
`B`'s right edge and carve leftward to `B`'s edge x-coordinate. -/
def joinRectsSecond (width : Int) (a b : Rect) (t : Tiles) : Tiles :=
  match project a.leftEdge b.rightEdge with
  | some proj =>
    if a.leftEdge.pos.x > b.rightEdge.pos.x then
      carveLoopX width proj.norm b.rightEdge.pos.x
        (proj.mid.x - b.rightEdge.pos.x).toNat proj.mid t
    else joinRectsFallback width a b t
  | none => joinRectsFallback width a b t

/-- `Map.join_rects(a, b)`: first direct-carve attempt (project `A`'s top edge
onto `B`'s bottom edge, carve upward to `B`'s edge y-coordinate), then the
second attempt, then the fallback. -/
def joinRects (width : Int) (a b : Rect) (t : Tiles) : Tiles :=
  match project a.topEdge b.bottomEdge with
  | some proj =>
    if a.topEdge.pos.y > b.bottomEdge.pos.y then
      carveLoopY width proj.norm b.bottomEdge.pos.y
        (proj.mid.y - b.bottomEdge.pos.y).toNat proj.mid t
    else joinRectsSecond width a b t
  | none => joinRectsSecond width a b t

/-- Guard of the first direct carve in `join_rects`. -/
def carveTopApplies (a b : Rect) : Prop :=
  (project a.topEdge b.bottomEdge).isSome = true
    ∧ a.topEdge.pos.y > b.bottomEdge.pos.y

instance (a b : Rect) : Decidable (carveTopApplies a b) := by
  unfold carveTopApplies; infer_instance

/-- Guard of the second direct carve in `join_rects`. -/
def carveLeftApplies (a b : Rect) : Prop :=
  (project a.leftEdge b.rightEdge).isSome = true
    ∧ a.leftEdge.pos.x > b.rightEdge.pos.x

instance (a b : Rect) : Decidable (carveLeftApplies a b) := by
  unfold carveLeftApplies; infer_instance

/-- `Room.center`: truncated mean of the rectangle centers — componentwise
Python `//` of `sum(centers, ZERO)` by the rectangle count. -/
def Room.center (room : Room) : Int2 :=
  let s := room.rects.foldl (fun acc r => acc + r.center) Int2.zero
  ⟨Int.ediv s.x room.rects.length, Int.ediv s.y room.rects.length⟩

/-- The union-find `find` loop of `build_graph`
(`while parent[x] != x: parent[x] = parent[parent[x]]; x = parent[x]`), with
path halving, the parent array as an explicit function, and explicit fuel.
Under the forest invariant maintained by `build_graph` the loop terminates
within `n` iterations (proved below), so callers pass the room count. -/
def findAux : ℕ → (ℕ → ℕ) → ℕ → ((ℕ → ℕ) × ℕ)
  | 0, parent, x => (parent, x)
  | fuel + 1, parent, x =>
    if parent x = x then (parent, x)
    else
      let parent1 := Function.update parent x (parent (parent x))
      findAux fuel parent1 (parent1 x)

/-- `union(a, b)` from `build_graph`: find both roots (each `find` compresses
paths), link the root of `b` under the root of `a` when they differ, and
report whether a merge happened. -/
def unionFind (n : ℕ) (parent : ℕ → ℕ) (a b : ℕ) : (ℕ → ℕ) × Bool :=
  let fa := findAux n parent a
  let fb := findAux n fa.1 b
  if fa.2 ≠ fb.2 then (Function.update fb.1 fb.2 fa.2, true) else (fb.1, false)

/-- Lexicographic comparison of `(distance, index)` pairs — Python's tuple
sort in the nearest-neighbour scan of `build_graph` (total: indices are
distinct). -/
def distLe (u v : Int × ℕ) : Bool :=
  u.1 < v.1 || (u.1 == v.1 && decide (u.2 ≤ v.2))

/-- Comparison by weight only
(`sorted(candidate_edges, key=lambda e: e[2])`); ties among equal weights
follow Python's unspecified set iteration order, of which this is one
consistent refinement. -/
def weightLe (u v : ℕ × ℕ × Int) : Bool := decide (u.2.2 ≤ v.2.2)

/-- Add a candidate edge unless already present (`set.add` on the triple). -/
def addEdge (acc : List (ℕ × ℕ × Int)) (e : ℕ × ℕ × Int) : List (ℕ × ℕ × Int) :=
  if e ∈ acc then acc else acc ++ [e]

/-- Candidate edges contributed by room `i` in `build_graph`: the `K = 4`
nearest other room centers by Manhattan distance, each as a canonical
`(min i j, max i j, weight)` triple. -/
def candFor (centers : List Int2) (i : ℕ) (acc : List (ℕ × ℕ × Int)) :
    List (ℕ × ℕ × Int) :=
  let n := centers.length
  let ci := centers.getD i Int2.zero
  let distances := sortBy distLe
    (((List.range n).filter (fun j => j ≠ i)).map
      (fun j => (dist ci (centers.getD j Int2.zero), j)))
  (distances.take 4).foldl
    (fun acc2 dj =>
      addEdge acc2 (min i dj.2, max i dj.2,
        dist (centers.getD (min i dj.2) Int2.zero)
          (centers.getD (max i dj.2) Int2.zero)))
    acc

/-- All candidate edges of `build_graph` (the Python set, in insertion
order). -/
def candidateEdges (centers : List Int2) : List (ℕ × ℕ × Int) :=
  (List.range centers.length).foldl (fun acc i => candFor centers i acc) []

/-- The connection recording of an accepted edge
(`rooms[a].connections.add(b); rooms[b].connections.add(a)`). -/
def recordEdge (rooms : List Room) (a b : ℕ) : List Room :=
  let rooms1 := rooms.set a
    ⟨(rooms.getD a defaultRoom).rects,
      insert b (rooms.getD a defaultRoom).connections⟩
  rooms1.set b
    ⟨(rooms1.getD b defaultRoom).rects,
      insert a (rooms1.getD b defaultRoom).connections⟩

/-- The Kruskal loop of `build_graph`: consume candidate edges (sorted by
weight); an edge is accepted iff its union joins two previously distinct
components, and is then recorded symmetrically on both endpoint rooms'
connection sets.  Also returns the accepted edges in order. -/
def processEdges (n : ℕ) :
    List (ℕ × ℕ × Int) → (ℕ → ℕ) → List Room → List (ℕ × ℕ) →
      ((ℕ → ℕ) × List Room × List (ℕ × ℕ))
  | [], parent, rooms, acc => (parent, rooms, acc)
  | e :: rest, parent, rooms, acc =>
    let u := unionFind n parent e.1 e.2.1
    if u.2 then
      processEdges n rest u.1 (recordEdge rooms e.1 e.2.1) (acc ++ [(e.1, e.2.1)])
    else processEdges n rest u.1 rooms acc

/-- `Map.build_graph` in full: centers, K-nearest-neighbour candidates,
weight sort, union-find reduction.  Returns the final parent map, the rooms
with their connection sets filled in, and the accepted edge list. -/
def buildGraphFull (rooms : List Room) : (ℕ → ℕ) × List Room × List (ℕ × ℕ) :=
  let centers := rooms.map Room.center
  let edgesSorted := sortBy weightLe (candidateEdges centers)
  processEdges rooms.length edgesSorted (fun x => x) rooms []

/-- The room list produced by `build_graph` (connection sets filled in). -/
def buildGraph (rooms : List Room) : List Room := (buildGraphFull rooms).2.1

/-- The edges accepted by `build_graph`'s union-find. -/
def acceptedEdges (rooms : List Room) : List (ℕ × ℕ) := (buildGraphFull rooms).2.2

/-- Adjacency through the stored connection sets:
`j ∈ rooms[i].connections`. -/
def connAdj (rooms : List Room) (i j : ℕ) : Prop :=
  j ∈ (rooms.getD i defaultRoom).connections

/-- Adjacency through a candidate edge list, in either orientation. -/
def candAdj (edges : List (ℕ × ℕ × Int)) (i j : ℕ) : Prop :=
  (∃ w, (i, j, w) ∈ edges) ∨ (∃ w, (j, i, w) ∈ edges)

/-- Union-find forest invariant: the parent map sends `[0, n)` into itself,
and some rank strictly decreases along every non-trivial parent link (so
parent chains are acyclic and reach a fixpoint within `n` steps). -/
def UFInv (n : ℕ) (parent : ℕ → ℕ) : Prop :=
  (∀ x, x < n → parent x < n)
    ∧ ∃ rk : ℕ → ℕ, ∀ x, x < n → parent x ≠ x → rk (parent x) < rk x

/-- Invariant of the Kruskal loop of `build_graph`, tying the union-find
state to the recorded connection relation: the parent map is a well-formed
forest; connection entries are symmetric, confined to `[0, n)`, and connect
exactly the pairs with equal union-find roots; and the number of distinct
roots plus the number of accepted edges is `n`. -/
def GraphInv (n : ℕ) (parent : ℕ → ℕ) (rooms : List Room)
    (acc : List (ℕ × ℕ)) : Prop :=
  UFInv n parent
    ∧ (∀ u v, connAdj rooms u v → connAdj rooms v u)
    ∧ (∀ u v, connAdj rooms u v → u < n ∧ v < n)
    ∧ (∀ u v, u < n → v < n →
        (parent^[n] u = parent^[n] v ↔
          Relation.ReflTransGen (connAdj rooms) u v))
    ∧ ((Finset.range n).image (fun y => parent^[n] y)).card + acc.length = n

end Dungeon

namespace Dungeon

/-- C3 counterexample: on A = TOP edge at (1,1) length 10 and B = BOTTOM edge
at (8,3) length 5, `project` does not return a TOP edge at (8,1) of length 2. -/
theorem project_scenario_counterexample :
    project ⟨⟨1, 1⟩, 10, TOP⟩ ⟨⟨8, 3⟩, 5, BOTTOM⟩ ≠ some ⟨⟨8, 1⟩, 2, TOP⟩ := by
  decide

/-- C3 (amended): on A = TOP edge at (1,1) length 10 and B = BOTTOM edge at
(8,3) length 5, `project(A,B)` returns the TOP sub-edge at origin (3,1) of
length 5 (B spans x from 3 to 8, so the overlap with A's span 1..11 starts at
3 and has length 5). -/
theorem project_scenario :
    project ⟨⟨1, 1⟩, 10, TOP⟩ ⟨⟨8, 3⟩, 5, BOTTOM⟩ = some ⟨⟨3, 1⟩, 5, TOP⟩ := by
  decide

/-- Truncation toward zero agrees with the floor on nonnegative rationals. -/
theorem pyInt_eq_floor {q : ℚ} (h : 0 ≤ q) : pyInt q = ⌊q⌋ := by
  unfold pyInt
  rw [Int.tdiv_eq_ediv (Rat.num_nonneg.mpr h) (by positivity), Rat.floor_def]

/-- Truncation of a nonnegative rational is nonnegative. -/
theorem pyInt_nonneg {q : ℚ} (h : 0 ≤ q) : 0 ≤ pyInt q := by
  rw [pyInt_eq_floor h]
  exact Int.le_floor.mpr (by exact_mod_cast h)

/-- Truncation respects an integer upper bound. -/
theorem pyInt_le_of_le {q : ℚ} {b : Int} (h0 : 0 ≤ q) (h : q ≤ (b : ℚ)) :
    pyInt q ≤ b := by
  rw [pyInt_eq_floor h0]
  calc ⌊q⌋ ≤ ⌊(b : ℚ)⌋ := Int.floor_le_floor h
    _ = b := Int.floor_intCast b

/-- Truncation respects a strict integer upper bound. -/
theorem pyInt_lt_of_lt {q : ℚ} {b : Int} (h0 : 0 ≤ q) (h : q < (b : ℚ)) :
    pyInt q < b := by
  rw [pyInt_eq_floor h0]
  exact Int.floor_lt.mpr h

/-- The clamp in `nrand` never exceeds `avg + limit`. -/
theorem nrand_le (g avg variance limit : ℚ) : nrand g avg variance limit ≤ avg + limit :=
  min_le_right _ _

/-- The clamp in `nrand` never goes below `avg - limit` (for a sane limit). -/
theorem le_nrand (g avg variance limit : ℚ) (h : 0 ≤ limit) :
    avg - limit ≤ nrand g avg variance limit :=
  le_min (le_max_right _ _) (by linarith)

/-- The split amount `int(nrand(0.5, 0.15, 0.35) * d)` lies in `[0, d]` for a
nonnegative dimension `d` (the clamped fraction is in `[0.15, 0.85]`). -/
theorem splitAmount_bounds (g : ℚ) {d : Int} (hd : 0 ≤ d) :
    0 ≤ pyInt (nrand g (1 / 2) (3 / 20) (7 / 20) * (d : ℚ))
      ∧ pyInt (nrand g (1 / 2) (3 / 20) (7 / 20) * (d : ℚ)) ≤ d := by
  have hv1 : (3 / 20 : ℚ) ≤ nrand g (1 / 2) (3 / 20) (7 / 20) := by
    have := le_nrand g (1 / 2) (3 / 20) (7 / 20) (by norm_num)
    linarith
  have hv2 : nrand g (1 / 2) (3 / 20) (7 / 20) ≤ 17 / 20 := by
    have := nrand_le g (1 / 2) (3 / 20) (7 / 20)
    linarith
  have hdq : (0 : ℚ) ≤ (d : ℚ) := by exact_mod_cast hd
  have h0 : 0 ≤ nrand g (1 / 2) (3 / 20) (7 / 20) * (d : ℚ) :=
    mul_nonneg (by linarith) hdq
  refine ⟨pyInt_nonneg h0, pyInt_le_of_le h0 ?_⟩
  calc nrand g (1 / 2) (3 / 20) (7 / 20) * (d : ℚ) ≤ 1 * (d : ℚ) :=
        mul_le_mul_of_nonneg_right (by linarith) hdq
    _ = (d : ℚ) := one_mul _

/-- Shape of any `Node.split` result: a horizontal split stacking two rects,
or a vertical split placing them side by side, with the split amount in
`[0, dimension]` whenever the dimension is nonnegative. -/
theorem splitRect_eq (r : Rect) (axis : Int) (g : ℚ) :
    (∃ a : Int,
        splitRect r axis g = (⟨r.x, r.y, r.w, a⟩, ⟨r.x, r.y + a, r.w, r.h - a⟩)
          ∧ (0 ≤ r.h → 0 ≤ a ∧ a ≤ r.h))
      ∨ (∃ a : Int,
        splitRect r axis g = (⟨r.x, r.y, a, r.h⟩, ⟨r.x + a, r.y, r.w - a, r.h⟩)
          ∧ (0 ≤ r.w → 0 ≤ a ∧ a ≤ r.w)) := by
  by_cases h1 : (if axis = 0 then (if r.h > r.w then HORIZ else VERT) else axis) = HORIZ
  · left
    refine ⟨pyInt (nrand g (1 / 2) (3 / 20) (7 / 20) * (r.h : ℚ)), ?_,
      fun hh => splitAmount_bounds g hh⟩
    simp only [splitRect]
    rw [if_pos h1]
  · right
    refine ⟨pyInt (nrand g (1 / 2) (3 / 20) (7 / 20) * (r.w : ℚ)), ?_,
      fun hw => splitAmount_bounds g hw⟩
    simp only [splitRect]
    rw [if_neg h1]

/-- C6: for every parent rectangle of nonnegative extent and every split —
auto-chosen axis or forced horizontal/vertical — the two child rectangles
produced by `Node.split` are disjoint and their union is exactly the parent:
each cell lies in the parent iff it lies in exactly one child. -/
theorem split_partitions_parent (r : Rect) (axis : Int) (g : ℚ) (p : Int2)
    (hw : 0 ≤ r.w) (hh : 0 ≤ r.h) :
    (r.covers p ↔
        ((splitRect r axis g).1.covers p ∨ (splitRect r axis g).2.covers p))
      ∧ ¬((splitRect r axis g).1.covers p ∧ (splitRect r axis g).2.covers p) := by
  rcases splitRect_eq r axis g with ⟨a, heq, hb⟩ | ⟨a, heq, hb⟩
  · obtain ⟨h0, h1⟩ := hb hh
    rw [heq]
    simp only [Rect.covers]
    omega
  · obtain ⟨h0, h1⟩ := hb hw
    rw [heq]
    simp only [Rect.covers]
    omega

/-- Witness for C6 at a concrete parent, auto axis, gaussian draw 1/2 and the
cell (1,3). -/
theorem split_partitions_parent_witness :
    (0 ≤ (Rect.mk 0 0 4 6).w ∧ 0 ≤ (Rect.mk 0 0 4 6).h)
      ∧ (((Rect.mk 0 0 4 6).covers ⟨1, 3⟩ ↔
            ((splitRect ⟨0, 0, 4, 6⟩ 0 (1 / 2)).1.covers ⟨1, 3⟩
              ∨ (splitRect ⟨0, 0, 4, 6⟩ 0 (1 / 2)).2.covers ⟨1, 3⟩))
          ∧ ¬((splitRect ⟨0, 0, 4, 6⟩ 0 (1 / 2)).1.covers ⟨1, 3⟩
              ∧ (splitRect ⟨0, 0, 4, 6⟩ 0 (1 / 2)).2.covers ⟨1, 3⟩)) :=
  ⟨⟨by decide, by decide⟩,
    split_partitions_parent ⟨0, 0, 4, 6⟩ 0 (1 / 2) ⟨1, 3⟩ (by decide) (by decide)⟩

/-- Leaves of `generate_tree` all satisfy the minimum size when the root does
(helper, by induction on the recursion depth bound). -/
theorem generateTree_leaves_bound (minSize : Int) (rs : ℕ → ℚ) :
    ∀ (fuel : ℕ) (root : Rect) (k : ℕ), minSize ≤ root.w → minSize ≤ root.h →
      ∀ r ∈ (generateTree minSize rs fuel root k).1.leaves,
        minSize ≤ r.w ∧ minSize ≤ r.h := by
  intro fuel
  induction fuel with
  | zero =>
    intro root k hw hh r hr
    simp only [generateTree, BTree.leaves, List.mem_singleton] at hr
    subst hr
    exact ⟨hw, hh⟩
  | succ n ih =>
    intro root k hw hh r hr
    simp only [generateTree] at hr
    split at hr
    case isTrue hc =>
      simp only [BTree.leaves, List.mem_append] at hr
      rcases hr with h1 | h2
      · exact ih _ _ hc.1 hc.2.1 r h1
      · exact ih _ _ hc.2.2.1 hc.2.2.2 r h2
    case isFalse =>
      simp only [BTree.leaves, List.mem_singleton] at hr
      subst hr
      exact ⟨hw, hh⟩

/-- C5: every leaf rectangle of the tree returned by
`generate_tree(root, min_size)` has `width ≥ min_size` and `height ≥ min_size`
whenever the root does — a split is kept only if both children satisfy the
bound, otherwise the node stays a leaf (with no retry), so leaves are either
the root or accepted children. -/
theorem generateTree_leaf_ge_minSize (minSize : Int) (rs : ℕ → ℚ) (fuel : ℕ)
    (root : Rect) (k : ℕ) (r : Rect)
    (hw : minSize ≤ root.w) (hh : minSize ≤ root.h)
    (hr : r ∈ (generateTree minSize rs fuel root k).1.leaves) :
    minSize ≤ r.w ∧ minSize ≤ r.h :=
  generateTree_leaves_bound minSize rs fuel root k hw hh r hr

/-- Witness for C5: with root 20 by 20, min size 8 and all gaussian draws 1/2,
the rectangle (0,0,10,10) is a leaf of the generated tree and satisfies the
bound. -/
theorem generateTree_leaf_ge_minSize_witness :
    ((8 : Int) ≤ (Rect.mk 0 0 20 20).w ∧ (8 : Int) ≤ (Rect.mk 0 0 20 20).h
        ∧ Rect.mk 0 0 10 10 ∈
          (generateTree 8 (fun _ => 1 / 2) 3 ⟨0, 0, 20, 20⟩ 0).1.leaves)
      ∧ ((8 : Int) ≤ (Rect.mk 0 0 10 10).w ∧ (8 : Int) ≤ (Rect.mk 0 0 10 10).h) :=
  ⟨⟨by decide, by decide, by with_unfolding_all decide⟩,
    generateTree_leaf_ge_minSize 8 (fun _ => 1 / 2) 3 ⟨0, 0, 20, 20⟩ 0
      ⟨0, 0, 10, 10⟩ (by decide) (by decide) (by with_unfolding_all decide)⟩

/-- Children of any split tile the parent: along the split axis the child
extents sum to the parent extent, and the other axis is inherited unchanged. -/
theorem splitRect_children (r : Rect) (axis : Int) (g : ℚ) :
    ((splitRect r axis g).1.w = r.w ∧ (splitRect r axis g).2.w = r.w
        ∧ (splitRect r axis g).1.h + (splitRect r axis g).2.h = r.h)
      ∨ ((splitRect r axis g).1.h = r.h ∧ (splitRect r axis g).2.h = r.h
        ∧ (splitRect r axis g).1.w + (splitRect r axis g).2.w = r.w) := by
  rcases splitRect_eq r axis g with ⟨a, heq, _⟩ | ⟨a, heq, _⟩
  · left
    rw [heq]
    refine ⟨rfl, rfl, ?_⟩
    show a + (r.h - a) = r.h
    omega
  · right
    rw [heq]
    refine ⟨rfl, rfl, ?_⟩
    show a + (r.w - a) = r.w
    omega

/-- C10 (amended): when the root is smaller than `2 * min_size` in BOTH
dimensions, `generate_tree` returns a single-leaf tree; the one split that is
always attempted at the root consumes one gaussian draw and is discarded,
since no split amount can give both children `min_size` along the split
axis. -/
theorem generateTree_small_root_leaf (minSize : Int) (rs : ℕ → ℚ) (fuel : ℕ)
    (root : Rect) (k : ℕ)
    (hw : root.w < 2 * minSize) (hh : root.h < 2 * minSize) (hfuel : 1 ≤ fuel) :
    generateTree minSize rs fuel root k = (.leaf root, k + 1) := by
  obtain ⟨n, rfl⟩ : ∃ n, fuel = n + 1 := ⟨fuel - 1, by omega⟩
  have hcond : ¬(minSize ≤ (splitRect root 0 (rs k)).1.w
      ∧ minSize ≤ (splitRect root 0 (rs k)).1.h
      ∧ minSize ≤ (splitRect root 0 (rs k)).2.w
      ∧ minSize ≤ (splitRect root 0 (rs k)).2.h) := by
    rcases splitRect_children root 0 (rs k) with ⟨h1, h2, h3⟩ | ⟨h1, h2, h3⟩ <;>
      intro hc <;> omega
  simp only [generateTree]
  rw [if_neg hcond]

/-- C10 counterexample: a root narrower than `2 * min_size` in one dimension
only (width 10 < 16 but height 100) still splits along the tall axis, so the
returned tree is not a single leaf — refuting the claim for roots small in
just one ("either") dimension. -/
theorem generateTree_small_root_counterexample :
    (Rect.mk 0 0 10 100).w < 2 * 8
      ∧ (generateTree 8 (fun _ => 1 / 2) 10 ⟨0, 0, 10, 100⟩ 0).1.isLeaf = false := by
  exact ⟨by decide, by with_unfolding_all decide⟩

/-- Witness for the amended C10 at a concrete small root. -/
theorem generateTree_small_root_leaf_witness :
    ((Rect.mk 0 0 10 12).w < 2 * 8 ∧ (Rect.mk 0 0 10 12).h < 2 * 8 ∧ 1 ≤ 3)
      ∧ generateTree 8 (fun _ => 1 / 2) 3 ⟨0, 0, 10, 12⟩ 0 =
          (.leaf ⟨0, 0, 10, 12⟩, 1) :=
  ⟨⟨by decide, by decide, by decide⟩,
    generateTree_small_root_leaf 8 (fun _ => 1 / 2) 3 ⟨0, 0, 10, 12⟩ 0
      (by decide) (by decide) (by decide)⟩

/-- One shrink step `d := d - int(nrand(0.25, 0.05, 0.15) * d)` keeps a
positive dimension positive: the clamped fraction is at most 0.4, so the
truncated amount is strictly below `d`. -/
theorem shrink_keeps_pos (g : ℚ) {d : Int} (hd : 1 ≤ d) :
    1 ≤ d - pyInt (nrand g (1 / 4) (1 / 20) (3 / 20) * (d : ℚ)) := by
  have hv1 : (1 / 10 : ℚ) ≤ nrand g (1 / 4) (1 / 20) (3 / 20) := by
    have := le_nrand g (1 / 4) (1 / 20) (3 / 20) (by norm_num)
    linarith
  have hv2 : nrand g (1 / 4) (1 / 20) (3 / 20) ≤ 2 / 5 := by
    have := nrand_le g (1 / 4) (1 / 20) (3 / 20)
    linarith
  have hdq : (1 : ℚ) ≤ (d : ℚ) := by exact_mod_cast hd
  have h0 : 0 ≤ nrand g (1 / 4) (1 / 20) (3 / 20) * (d : ℚ) :=
    mul_nonneg (by linarith) (by linarith)
  have hlt : pyInt (nrand g (1 / 4) (1 / 20) (3 / 20) * (d : ℚ)) < d := by
    apply pyInt_lt_of_lt h0
    calc nrand g (1 / 4) (1 / 20) (3 / 20) * (d : ℚ) ≤ (2 / 5) * (d : ℚ) :=
          mul_le_mul_of_nonneg_right hv2 (by linarith)
      _ < (d : ℚ) := by linarith
  omega

/-- C4: the `shrink_rooms` body never reduces width or height to zero or
below.  Starting from `w, h ≥ 1`, each side's shrink amount — the clamped
gaussian fraction (at most 0.4) of the current dimension, truncated — is
strictly less than the current dimension, for every combination of per-side
shrink decisions and gaussian draws, so both dimensions stay at least 1. -/
theorem shrinkRect_keeps_positive (r : Rect) (b1 b2 b3 b4 : Bool)
    (g1 g2 g3 g4 : ℚ) (hw : 1 ≤ r.w) (hh : 1 ≤ r.h) :
    1 ≤ (shrinkRect r b1 b2 b3 b4 g1 g2 g3 g4).w
      ∧ 1 ≤ (shrinkRect r b1 b2 b3 b4 g1 g2 g3 g4).h := by
  unfold shrinkRect
  cases b1 <;> cases b2 <;> cases b3 <;> cases b4 <;>
    exact ⟨by first
        | exact hw
        | exact shrink_keeps_pos _ hw
        | exact shrink_keeps_pos _ (shrink_keeps_pos _ hw),
      by first
        | exact hh
        | exact shrink_keeps_pos _ hh
        | exact shrink_keeps_pos _ (shrink_keeps_pos _ hh)⟩

/-- C9: after `merge_rooms` returns, every room remaining in the list has a
non-empty rectangle list — rooms emptied during the single merge pass are
dropped by the final filter, and the survivors keep their relative order, so
their positions in the compacted list renumber them contiguously. -/
theorem mergeRooms_no_empty (rooms : List Room) (room : Room)
    (hr : room ∈ mergeRooms rooms) : room.rects ≠ [] := by
  intro hnil
  unfold mergeRooms at hr
  rw [List.mem_filter] at hr
  rw [hnil] at hr
  simp at hr

/-- Witness for C9: two edge-touching rooms merge into one, which survives
with a non-empty rectangle list. -/
theorem mergeRooms_no_empty_witness :
    (Room.mk [Rect.mk 0 0 2 2, Rect.mk 2 0 2 2] ∅ ∈
        mergeRooms [Room.mk [Rect.mk 0 0 2 2] ∅, Room.mk [Rect.mk 2 0 2 2] ∅])
      ∧ (Room.mk [Rect.mk 0 0 2 2, Rect.mk 2 0 2 2] ∅).rects ≠ [] :=
  ⟨by decide,
    mergeRooms_no_empty [Room.mk [Rect.mk 0 0 2 2] ∅, Room.mk [Rect.mk 2 0 2 2] ∅]
      (Room.mk [Rect.mk 0 0 2 2, Rect.mk 2 0 2 2] ∅) (by decide)⟩

/-- C8: when neither direct carve applies in `join_rects`, the fallback
leaves every cell of the tile grid unchanged — the minimal edge pair is
selected by midpoint Manhattan distance and handed to `ldraw`, which returns
before drawing anything. -/
theorem joinRects_fallback_noop (width : Int) (a b : Rect) (t : Tiles)
    (h1 : ¬carveTopApplies a b) (h2 : ¬carveLeftApplies a b) :
    joinRects width a b t = t := by
  have hfb : joinRectsFallback width a b t = t := by
    unfold joinRectsFallback
    cases sortBy fallbackLe (fallbackPairs a b) with
    | nil => rfl
    | cons hd tl =>
      obtain ⟨d, i, j⟩ := hd
      rfl
  have hsec : joinRectsSecond width a b t = t := by
    unfold joinRectsSecond
    split
    case h_1 proj heq =>
      rw [if_neg]
      · exact hfb
      · intro hgt
        exact h2 ⟨by rw [heq]; rfl, hgt⟩
    case h_2 => exact hfb
  unfold joinRects
  split
  case h_1 proj heq =>
    rw [if_neg]
    · exact hsec
    · intro hgt
      exact h1 ⟨by rw [heq]; rfl, hgt⟩
  case h_2 => exact hsec

/-- Witness for C8: two diagonal rectangles where neither projection-based
carve applies, so `join_rects` returns the grid unchanged. -/
theorem joinRects_fallback_noop_witness :
    (¬carveTopApplies ⟨0, 0, 4, 4⟩ ⟨10, 10, 4, 4⟩
        ∧ ¬carveLeftApplies ⟨0, 0, 4, 4⟩ ⟨10, 10, 4, 4⟩)
      ∧ joinRects 16 ⟨0, 0, 4, 4⟩ ⟨10, 10, 4, 4⟩ (fun _ => 0) = (fun _ => 0) :=
  ⟨⟨by decide, by decide⟩,
    joinRects_fallback_noop 16 ⟨0, 0, 4, 4⟩ ⟨10, 10, 4, 4⟩ (fun _ => 0)
      (by decide) (by decide)⟩

/-- Unfolding of `Rect.top_edge`. -/
theorem Rect.topEdge_eq (r : Rect) : r.topEdge = ⟨⟨r.x, r.y⟩, r.w, TOP⟩ := rfl

/-- Unfolding of `Rect.bottom_edge`. -/
theorem Rect.bottomEdge_eq (r : Rect) :
    r.bottomEdge = ⟨⟨r.x + (r.w - 1), r.y + (r.h - 1)⟩, r.w, BOTTOM⟩ := rfl

/-- Unfolding of `Rect.left_edge`. -/
theorem Rect.leftEdge_eq (r : Rect) :
    r.leftEdge = ⟨⟨r.x + 0, r.y + (r.h - 1)⟩, r.h, LEFT⟩ := rfl

/-- Unfolding of `Rect.right_edge`. -/
theorem Rect.rightEdge_eq (r : Rect) :
    r.rightEdge = ⟨⟨r.x + (r.w - 1), r.y + 0⟩, r.h, RIGHT⟩ := rfl

/-- The outward normal of a TOP edge is `(0, -1)`. -/
theorem Edge.norm_of_top (e : Edge) (h : e.dir = TOP) : e.norm = ⟨0, -1⟩ := by
  unfold Edge.norm
  rw [h]
  rfl

/-- The outward normal of a LEFT edge is `(-1, 0)`. -/
theorem Edge.norm_of_left (e : Edge) (h : e.dir = LEFT) : e.norm = ⟨-1, 0⟩ := by
  unfold Edge.norm
  rw [h]
  rfl

/-- The midpoint of a TOP edge keeps the edge's y-coordinate. -/
theorem Edge.mid_y_of_top (e : Edge) (h : e.dir = TOP) : e.mid.y = e.pos.y := by
  unfold Edge.mid Edge.delta
  rw [h]
  have hd : DELTAS TOP = ⟨1, 0⟩ := rfl
  rw [hd]
  simp [Int2.smul]

/-- The midpoint of a LEFT edge keeps the edge's x-coordinate. -/
theorem Edge.mid_x_of_left (e : Edge) (h : e.dir = LEFT) : e.mid.x = e.pos.x := by
  unfold Edge.mid Edge.delta
  rw [h]
  have hd : DELTAS LEFT = ⟨0, -1⟩ := rfl
  rw [hd]
  simp [Int2.smul]

/-- Shape of `project` on a TOP edge against a BOTTOM edge: the positive
overlap of the x-spans, placed at the TOP edge's y-coordinate. -/
theorem project_top_bottom (e0 e1 : Edge) (h0 : e0.dir = TOP) (h1 : e1.dir = BOTTOM) :
    project e0 e1 =
      if min e0.endp.x e1.pos.x > max e0.pos.x e1.endp.x then
        some ⟨⟨max e0.pos.x e1.endp.x, e0.pos.y⟩,
          min e0.endp.x e1.pos.x - max e0.pos.x e1.endp.x, TOP⟩
      else none := by
  unfold project Edge.isHoriz Edge.isVert
  rw [h0, h1]
  norm_num [TOP, BOTTOM, RIGHT, LEFT]

/-- Shape of `project` on a LEFT edge against a RIGHT edge: the positive
overlap of the y-spans, placed at the LEFT edge's x-coordinate. -/
theorem project_left_right (e0 e1 : Edge) (h0 : e0.dir = LEFT) (h1 : e1.dir = RIGHT) :
    project e0 e1 =
      if min e0.pos.y e1.endp.y > max e0.endp.y e1.pos.y then
        some ⟨⟨e0.pos.x, min e0.pos.y e1.endp.y⟩,
          min e0.pos.y e1.endp.y - max e0.endp.y e1.pos.y, LEFT⟩
      else none := by
  unfold project Edge.isHoriz Edge.isVert
  rw [h0, h1]
  norm_num [TOP, BOTTOM, RIGHT, LEFT]

/-- A successful top-onto-bottom projection is a TOP edge at the source
edge's y-coordinate. -/
theorem project_top_bottom_shape (e0 e1 proj : Edge) (h0 : e0.dir = TOP)
    (h1 : e1.dir = BOTTOM) (h : project e0 e1 = some proj) :
    proj.dir = TOP ∧ proj.pos.y = e0.pos.y := by
  rw [project_top_bottom e0 e1 h0 h1] at h
  split at h
  · cases h
    exact ⟨rfl, rfl⟩
  · cases h

/-- A successful left-onto-right projection is a LEFT edge at the source
edge's x-coordinate. -/
theorem project_left_right_shape (e0 e1 proj : Edge) (h0 : e0.dir = LEFT)
    (h1 : e1.dir = RIGHT) (h : project e0 e1 = some proj) :
    proj.dir = LEFT ∧ proj.pos.x = e0.pos.x := by
  rw [project_left_right e0 e1 h0 h1] at h
  split at h
  · cases h
    exact ⟨rfl, rfl⟩
  · cases h

open Classical in
/-- Effect of the first carve loop when stepping with normal `(0, -1)` and
fuel `start.y - stop`: every cell of the start column with y strictly above
`stop` and at most the start y is set to 1; all other flat indices are
untouched.  In particular the loop never writes the cell at y = `stop`. -/
theorem carveLoopY_spec (width stop : Int) :
    ∀ (n : ℕ) (p : Int2) (t : Tiles) (idx : Int), p.y = stop + n →
      carveLoopY width ⟨0, -1⟩ stop n p t idx
        = if ∃ y : Int, stop < y ∧ y ≤ p.y ∧ idx = p.x + y * width then 1
          else t idx := by
  intro n
  induction n with
  | zero =>
    intro p t idx hp
    rw [carveLoopY, if_neg]
    rintro ⟨y, hy1, hy2, hy3⟩
    omega
  | succ m ih =>
    intro p t idx hp
    rw [carveLoopY, if_neg (by omega : ¬p.y = stop)]
    rw [ih (p + ⟨0, -1⟩) (plot width t p 1) idx (by simp; omega)]
    have hx : (p + (⟨0, -1⟩ : Int2)).x = p.x := by simp
    have hy : (p + (⟨0, -1⟩ : Int2)).y = p.y - 1 := by simp; omega
    rw [hx, hy]
    unfold plot
    rw [Function.update_apply]
    by_cases hA : ∃ y : Int, stop < y ∧ y ≤ p.y - 1 ∧ idx = p.x + y * width
    · rw [if_pos hA, if_pos]
      obtain ⟨y, hy1, hy2, hy3⟩ := hA
      exact ⟨y, hy1, by omega, hy3⟩
    · rw [if_neg hA]
      by_cases hB : idx = p.x + p.y * width
      · rw [if_pos hB, if_pos ⟨p.y, by omega, le_refl _, hB⟩]
      · rw [if_neg hB, if_neg]
        rintro ⟨y, hy1, hy2, hy3⟩
        by_cases hyp : y = p.y
        · exact hB (by rw [← hyp]; exact hy3)
        · exact hA ⟨y, hy1, by omega, hy3⟩

open Classical in
/-- Effect of the second carve loop when stepping with normal `(-1, 0)` and
fuel `start.x - stop`: mirror image of `carveLoopY_spec`. -/
theorem carveLoopX_spec (width stop : Int) :
    ∀ (n : ℕ) (p : Int2) (t : Tiles) (idx : Int), p.x = stop + n →
      carveLoopX width ⟨-1, 0⟩ stop n p t idx
        = if ∃ x : Int, stop < x ∧ x ≤ p.x ∧ idx = x + p.y * width then 1
          else t idx := by
  intro n
  induction n with
  | zero =>
    intro p t idx hp
    rw [carveLoopX, if_neg]
    rintro ⟨x, hx1, hx2, hx3⟩
    omega
  | succ m ih =>
    intro p t idx hp
    rw [carveLoopX, if_neg (by omega : ¬p.x = stop)]
    rw [ih (p + ⟨-1, 0⟩) (plot width t p 1) idx (by simp; omega)]
    have hx : (p + (⟨-1, 0⟩ : Int2)).x = p.x - 1 := by simp; omega
    have hy : (p + (⟨-1, 0⟩ : Int2)).y = p.y := by simp
    rw [hx, hy]
    unfold plot
    rw [Function.update_apply]
    by_cases hA : ∃ x : Int, stop < x ∧ x ≤ p.x - 1 ∧ idx = x + p.y * width
    · rw [if_pos hA, if_pos]
      obtain ⟨x, hx1, hx2, hx3⟩ := hA
      exact ⟨x, hx1, by omega, hx3⟩
    · rw [if_neg hA]
      by_cases hB : idx = p.x + p.y * width
      · rw [if_pos hB, if_pos ⟨p.x, by omega, le_refl _, hB⟩]
      · rw [if_neg hB, if_neg]
        rintro ⟨x, hx1, hx2, hx3⟩
        by_cases hxp : x = p.x
        · exact hB (by rw [← hxp]; exact hx3)
        · exact hA ⟨x, hx1, by omega, hx3⟩

open Classical in
/-- C2 (amended): whenever a direct carve applies in `join_rects`, tunnel
tiles (value 1) are written on the cells from the overlap midpoint stepping
one cell at a time along the projection's outward normal toward `B`'s edge
coordinate — INCLUSIVE of the midpoint endpoint but EXCLUSIVE of the final
cell at `B`'s edge coordinate, where the loop stops without plotting; all
other cells are untouched.  Part one is the top-onto-bottom carve, part two
the left-onto-right carve (reached when the first does not apply). -/
theorem joinRects_direct_carve (width : Int) (a b : Rect) (t : Tiles) (idx : Int) :
    (∀ proj : Edge, project a.topEdge b.bottomEdge = some proj →
      a.topEdge.pos.y > b.bottomEdge.pos.y →
      joinRects width a b t idx =
        if ∃ y : Int, b.bottomEdge.pos.y < y ∧ y ≤ proj.mid.y
            ∧ idx = proj.mid.x + y * width then 1
        else t idx)
    ∧ (∀ proj : Edge, ¬carveTopApplies a b →
      project a.leftEdge b.rightEdge = some proj →
      a.leftEdge.pos.x > b.rightEdge.pos.x →
      joinRects width a b t idx =
        if ∃ x : Int, b.rightEdge.pos.x < x ∧ x ≤ proj.mid.x
            ∧ idx = x + proj.mid.y * width then 1
        else t idx) := by
  constructor
  · intro proj hp hgt
    obtain ⟨hdir, hposy⟩ := project_top_bottom_shape _ _ _ rfl rfl hp
    have hmidy : proj.mid.y = a.topEdge.pos.y := by
      rw [Edge.mid_y_of_top _ hdir, hposy]
    simp only [joinRects, hp]
    rw [if_pos hgt, Edge.norm_of_top _ hdir,
      carveLoopY_spec width b.bottomEdge.pos.y _ proj.mid t idx (by omega)]
  · intro proj hnot hp hgt
    obtain ⟨hdir, hposx⟩ := project_left_right_shape _ _ _ rfl rfl hp
    have hmidx : proj.mid.x = a.leftEdge.pos.x := by
      rw [Edge.mid_x_of_left _ hdir, hposx]
    have hsec : joinRects width a b t = joinRectsSecond width a b t := by
      unfold joinRects
      split
      case h_1 proj0 heq =>
        rw [if_neg]
        intro hgt0
        exact hnot ⟨by rw [heq]; rfl, hgt0⟩
      case h_2 => rfl
    rw [hsec]
    simp only [joinRectsSecond, hp]
    rw [if_pos hgt, Edge.norm_of_left _ hdir,
      carveLoopX_spec width b.rightEdge.pos.x _ proj.mid t idx (by omega)]

/-- C2 counterexample: for A = Rect(1,8,3,4) and B = Rect(0,0,5,5) the
top-onto-bottom direct carve applies, the overlap midpoint is (2,8) and `B`'s
bottom-edge y-coordinate is 4 — yet with grid width 10 the cell (2,4) on `B`'s
edge (flat index 42) is left at 0 while (2,5) is carved to 1: the carve is not
inclusive of both endpoints. -/
theorem joinRects_endpoint_counterexample :
    carveTopApplies ⟨1, 8, 3, 4⟩ ⟨0, 0, 5, 5⟩
      ∧ joinRects 10 ⟨1, 8, 3, 4⟩ ⟨0, 0, 5, 5⟩ (fun _ => 0) (2 + 4 * 10) = 0
      ∧ joinRects 10 ⟨1, 8, 3, 4⟩ ⟨0, 0, 5, 5⟩ (fun _ => 0) (2 + 5 * 10) = 1 :=
  ⟨by decide, by decide, by decide⟩

open Classical in
/-- Witness for the amended C2 on the same concrete input: the carve writes
exactly the column cells with 4 < y ≤ 8 at x = 2. -/
theorem joinRects_direct_carve_witness :
    (project (Rect.mk 1 8 3 4).topEdge (Rect.mk 0 0 5 5).bottomEdge =
        some ⟨⟨1, 8⟩, 3, TOP⟩
      ∧ (Rect.mk 1 8 3 4).topEdge.pos.y > (Rect.mk 0 0 5 5).bottomEdge.pos.y)
      ∧ joinRects 10 ⟨1, 8, 3, 4⟩ ⟨0, 0, 5, 5⟩ (fun _ => 0) (2 + 5 * 10) =
          (if ∃ y : Int, (Rect.mk 0 0 5 5).bottomEdge.pos.y < y
              ∧ y ≤ (Edge.mk ⟨1, 8⟩ 3 TOP).mid.y
              ∧ 2 + 5 * 10 = (Edge.mk ⟨1, 8⟩ 3 TOP).mid.x + y * 10 then 1
          else 0) :=
  ⟨⟨by decide, by decide⟩,
    (joinRects_direct_carve 10 ⟨1, 8, 3, 4⟩ ⟨0, 0, 5, 5⟩ (fun _ => 0) (2 + 5 * 10)).1
      ⟨⟨1, 8⟩, 3, TOP⟩ (by decide) (by decide)⟩

/-- Witness for C4 at a concrete rectangle with all four sides shrinking. -/
theorem shrinkRect_keeps_positive_witness :
    (1 ≤ (Rect.mk 0 0 5 7).w ∧ 1 ≤ (Rect.mk 0 0 5 7).h)
      ∧ (1 ≤ (shrinkRect ⟨0, 0, 5, 7⟩ true true true true
              (1 / 4) (1 / 4) (1 / 4) (1 / 4)).w
          ∧ 1 ≤ (shrinkRect ⟨0, 0, 5, 7⟩ true true true true
              (1 / 4) (1 / 4) (1 / 4) (1 / 4)).h) :=
  ⟨⟨by decide, by decide⟩,
    shrinkRect_keeps_positive ⟨0, 0, 5, 7⟩ true true true true
      (1 / 4) (1 / 4) (1 / 4) (1 / 4) (by decide) (by decide)⟩


/-- A parent-map fixpoint absorbs all iterates. -/
theorem fix_stays {parent : ℕ → ℕ} {r : ℕ} (h : parent r = r) (m : ℕ) :
    parent^[m] r = r := by
  induction m with
  | zero => rfl
  | succ k ih => rw [Function.iterate_succ_apply', ih, h]

/-- Iterates of an in-range index stay in range. -/
theorem UFInv.iter_lt {n : ℕ} {parent : ℕ → ℕ} (h : UFInv n parent) {x : ℕ}
    (hx : x < n) (k : ℕ) : parent^[k] x < n := by
  induction k with
  | zero => exact hx
  | succ m ih =>
    rw [Function.iterate_succ_apply']
    exact h.1 _ ih

/-- Parent chains reach a fixpoint in fewer than `n` steps. -/
theorem UFInv.fix_lt {n : ℕ} {parent : ℕ → ℕ} (h : UFInv n parent) {x : ℕ}
    (hx : x < n) : ∃ k, k < n ∧ parent (parent^[k] x) = parent^[k] x := by
  by_contra hcon
  push_neg at hcon
  obtain ⟨rk, hrk⟩ := h.2
  have hchain : ∀ j i : ℕ, i < j → j ≤ n → rk (parent^[j] x) < rk (parent^[i] x) := by
    intro j
    induction j with
    | zero => intro i h0 _; omega
    | succ m ihj =>
      intro i hij hjn
      have hstep : rk (parent^[m + 1] x) < rk (parent^[m] x) := by
        rw [Function.iterate_succ_apply']
        exact hrk _ (h.iter_lt hx m) (hcon m (by omega))
      rcases Nat.lt_or_ge i m with him | him
      · exact lt_trans hstep (ihj i him (by omega))
      · have him2 : i = m := by omega
        rw [him2]
        exact hstep
  have hinj : ∀ i j : ℕ, i ≤ n → j ≤ n → parent^[i] x = parent^[j] x → i = j := by
    intro i j hi hj heq
    by_contra hne
    rcases Nat.lt_or_ge i j with hij | hij
    · exact absurd (heq ▸ hchain j i hij hj) (lt_irrefl _)
    · have hji : j < i := by omega
      exact absurd (heq.symm ▸ hchain i j hji hi) (lt_irrefl _)
  have hcard := Finset.card_le_card_of_injOn (fun i => parent^[i] x)
    (fun i _ => Finset.mem_range.mpr (h.iter_lt hx i))
    (s := Finset.range (n + 1)) (t := Finset.range n)
    (fun i hi j hj heq =>
      hinj i j (Nat.lt_succ_iff.mp (Finset.mem_range.mp (Finset.mem_coe.mp hi)))
        (Nat.lt_succ_iff.mp (Finset.mem_range.mp (Finset.mem_coe.mp hj))) heq)
  rw [Finset.card_range, Finset.card_range] at hcard
  omega

/-- The `n`-th iterate of an in-range index is a fixpoint (the root). -/
theorem UFInv.root_fix {n : ℕ} {parent : ℕ → ℕ} (h : UFInv n parent) {x : ℕ}
    (hx : x < n) : parent (parent^[n] x) = parent^[n] x := by
  obtain ⟨k, hk, hfix⟩ := h.fix_lt hx
  have heq : parent^[n] x = parent^[k] x := by
    conv_lhs => rw [show n = (n - k) + k from by omega]
    rw [Function.iterate_add_apply]
    exact fix_stays hfix (n - k)
  rw [heq]
  exact hfix

/-- Any fixpoint reachable from `x` is the root of `x`. -/
theorem UFInv.root_eq_of_reach {n : ℕ} {parent : ℕ → ℕ} (h : UFInv n parent)
    {x r : ℕ} (hx : x < n) {k : ℕ} (hfix : parent r = r)
    (hreach : parent^[k] x = r) : parent^[n] x = r := by
  rcases le_or_lt k n with hkn | hnk
  · conv_lhs => rw [show n = (n - k) + k from by omega]
    rw [Function.iterate_add_apply, hreach]
    exact fix_stays hfix (n - k)
  · have h1 : parent^[k] x = parent^[k - n] (parent^[n] x) := by
      rw [← Function.iterate_add_apply]
      congr 1
      omega
    rw [h1, fix_stays (h.root_fix hx) (k - n)] at hreach
    exact hreach

/-- Applying the parent map does not change the root. -/
theorem UFInv.root_parent {n : ℕ} {parent : ℕ → ℕ} (h : UFInv n parent) {x : ℕ}
    (hx : x < n) : parent^[n] (parent x) = parent^[n] x := by
  have h1 : parent^[n] (parent x) = parent (parent^[n] x) := by
    rw [← Function.iterate_succ_apply, Function.iterate_succ_apply']
  rw [h1, h.root_fix hx]

/-- Path halving (`parent[x] = parent[parent[x]]`) preserves the forest
invariant and every root. -/
theorem UFInv.halve {n : ℕ} {parent : ℕ → ℕ} (h : UFInv n parent) {x : ℕ}
    (hx : x < n) :
    UFInv n (Function.update parent x (parent (parent x)))
      ∧ ∀ y, y < n →
          (Function.update parent x (parent (parent x)))^[n] y = parent^[n] y := by
  set p1 := Function.update parent x (parent (parent x)) with hp1def
  have hp1y : ∀ y, p1 y = if y = x then parent (parent x) else parent y := by
    intro y
    rw [hp1def, Function.update_apply]
  have hInv1 : UFInv n p1 := by
    constructor
    · intro z hz
      rw [hp1y]
      by_cases hzx : z = x
      · rw [if_pos hzx]
        exact h.1 _ (h.1 _ hx)
      · rw [if_neg hzx]
        exact h.1 _ hz
    · obtain ⟨rk, hrk⟩ := h.2
      refine ⟨rk, ?_⟩
      intro z hz hne
      rw [hp1y] at hne ⊢
      by_cases hzx : z = x
      · rw [if_pos hzx] at hne ⊢
        subst hzx
        have hpx : parent z ≠ z := by
          intro hcontra
          rw [hcontra, hcontra] at hne
          exact hne rfl
        have h1 : rk (parent z) < rk z := hrk _ hz hpx
        by_cases hpp : parent (parent z) = parent z
        · rw [hpp]
          exact h1
        · exact lt_trans (hrk _ (h.1 _ hz) hpp) h1
      · rw [if_neg hzx] at hne ⊢
        exact hrk _ hz hne
  refine ⟨hInv1, ?_⟩
  have hsim : ∀ (k : ℕ) (y : ℕ), ∃ j, k ≤ j ∧ p1^[k] y = parent^[j] y := by
    intro k
    induction k with
    | zero => intro y; exact ⟨0, le_refl _, rfl⟩
    | succ m ih =>
      intro y
      obtain ⟨j, hj, hval⟩ := ih y
      rw [Function.iterate_succ_apply', hval, hp1y]
      by_cases hjx : parent^[j] y = x
      · refine ⟨j + 2, by omega, ?_⟩
        rw [if_pos hjx]
        have h2 : parent^[j + 2] y = parent (parent (parent^[j] y)) := by
          rw [Function.iterate_succ_apply', Function.iterate_succ_apply']
        rw [h2, hjx]
      · refine ⟨j + 1, by omega, ?_⟩
        rw [if_neg hjx, Function.iterate_succ_apply']
  intro y hy
  obtain ⟨j, hj, hval⟩ := hsim n y
  rw [hval]
  have h1 : parent^[j] y = parent^[j - n] (parent^[n] y) := by
    rw [← Function.iterate_add_apply]
    congr 1
    omega
  rw [h1, fix_stays (h.root_fix hy) (j - n)]

/-- Path halving does not lengthen the distance to a fixpoint: a parent-chain
from `y` to a fixpoint `r` yields a halved-map chain of at most the same
length. -/
theorem halve_reach {parent : ℕ → ℕ} (x : ℕ) {r : ℕ} (hr : parent r = r) :
    ∀ (m : ℕ) (y : ℕ), parent^[m] y = r →
      ∃ m2, m2 ≤ m ∧ (Function.update parent x (parent (parent x)))^[m2] y = r := by
  set p1 := Function.update parent x (parent (parent x)) with hp1def
  have hp1y : ∀ y, p1 y = if y = x then parent (parent x) else parent y := by
    intro y
    rw [hp1def, Function.update_apply]
  intro m
  induction m using Nat.strong_induction_on with
  | _ m ih =>
    intro y hy
    match m with
    | 0 => exact ⟨0, le_refl _, hy⟩
    | 1 =>
      by_cases hyx : y = x
      · subst hyx
        refine ⟨1, le_refl _, ?_⟩
        rw [Function.iterate_one] at hy ⊢
        rw [hp1y, if_pos rfl, hy, hr]
      · refine ⟨1, le_refl _, ?_⟩
        rw [Function.iterate_one] at hy ⊢
        rw [hp1y, if_neg hyx]
        exact hy
    | m1 + 2 =>
      by_cases hyx : y = x
      · subst hyx
        have hy2 : parent^[m1] (parent (parent y)) = r := by
          rw [← Function.iterate_succ_apply, ← Function.iterate_succ_apply]
          exact hy
        obtain ⟨m2, hm2, hval⟩ := ih m1 (by omega) _ hy2
        refine ⟨m2 + 1, by omega, ?_⟩
        rw [Function.iterate_succ_apply, hp1y, if_pos rfl]
        exact hval
      · have hy2 : parent^[m1 + 1] (parent y) = r := by
          rw [← Function.iterate_succ_apply]
          exact hy
        obtain ⟨m2, hm2, hval⟩ := ih (m1 + 1) (by omega) _ hy2
        refine ⟨m2 + 1, by omega, ?_⟩
        rw [Function.iterate_succ_apply, hp1y, if_neg hyx]
        exact hval


/-- `findAux` with enough fuel to reach a fixpoint returns the root of `x`,
preserves the forest invariant, and preserves every root (path compression
only shortens chains).  With fuel `n` the side condition always holds by
`UFInv.fix_lt`, matching the unbounded Python loop. -/
theorem findAux_spec (n : ℕ) : ∀ (fuel : ℕ) (parent : ℕ → ℕ) (x : ℕ),
    UFInv n parent → x < n →
    (∃ k, k ≤ fuel ∧ parent (parent^[k] x) = parent^[k] x) →
    UFInv n (findAux fuel parent x).1
      ∧ (∀ y, y < n → ((findAux fuel parent x).1)^[n] y = parent^[n] y)
      ∧ (findAux fuel parent x).2 = parent^[n] x := by
  intro fuel
  induction fuel with
  | zero =>
    intro parent x hInv hx hfuel
    obtain ⟨k, hk, hfix⟩ := hfuel
    have hk0 : k = 0 := by omega
    subst hk0
    simp only [Function.iterate_zero_apply] at hfix
    exact ⟨hInv, fun y _ => rfl, (fix_stays hfix n).symm⟩
  | succ m ih =>
    intro parent x hInv hx hfuel
    by_cases hfx : parent x = x
    · have heq : findAux (m + 1) parent x = (parent, x) := by
        simp only [findAux, if_pos hfx]
      rw [heq]
      exact ⟨hInv, fun y _ => rfl, (fix_stays hfx n).symm⟩
    · have hgoal : findAux (m + 1) parent x =
          findAux m (Function.update parent x (parent (parent x)))
            (Function.update parent x (parent (parent x)) x) := by
        simp only [findAux, if_neg hfx]
      rw [hgoal]
      obtain ⟨hInv1, hroots1⟩ := hInv.halve hx
      obtain ⟨k, hk, hfixk⟩ := hfuel
      have hk1 : 1 ≤ k := by
        rcases Nat.eq_zero_or_pos k with h0 | h1
        · subst h0
          simp only [Function.iterate_zero_apply] at hfixk
          exact absurd hfixk hfx
        · exact h1
      have hrfix : parent (parent^[k] x) = parent^[k] x := hfixk
      have hreach : ∃ k2, k2 ≤ m ∧ parent^[k2] (parent (parent x)) = parent^[k] x := by
        rcases lt_or_ge k 2 with hk2 | hk2
        · have hk1e : k = 1 := by omega
          subst hk1e
          exact ⟨0, by omega, hrfix⟩
        · refine ⟨k - 2, by omega, ?_⟩
          have h2 : parent (parent x) = parent^[2] x := rfl
          rw [h2, ← Function.iterate_add_apply]
          congr 1
          omega
      obtain ⟨k2, hk2m, hk2val⟩ := hreach
      have hp1rfix : Function.update parent x (parent (parent x)) (parent^[k] x)
          = parent^[k] x := by
        rw [Function.update_apply]
        by_cases hrx : parent^[k] x = x
        · rw [if_pos hrx]
          rw [hrx] at hrfix
          rw [hrfix, hrfix]
          exact hrx.symm
        · rw [if_neg hrx]
          exact hrfix
      obtain ⟨m2, hm2, hm2val⟩ := halve_reach x hrfix k2 (parent (parent x)) hk2val
      have hx1 : Function.update parent x (parent (parent x)) x < n := by
        rw [Function.update_same]
        exact hInv.1 _ (hInv.1 _ hx)
      have hx1eq : Function.update parent x (parent (parent x)) x = parent (parent x) :=
        Function.update_same x _ parent
      have hcond : ∃ k3, k3 ≤ m ∧
          Function.update parent x (parent (parent x))
              ((Function.update parent x (parent (parent x)))^[k3]
                (Function.update parent x (parent (parent x)) x))
            = (Function.update parent x (parent (parent x)))^[k3]
                (Function.update parent x (parent (parent x)) x) := by
        refine ⟨m2, by omega, ?_⟩
        rw [hx1eq, hm2val]
        exact hp1rfix
      obtain ⟨hInvR, hrootsR, hvalR⟩ := ih _ _ hInv1 hx1 hcond
      refine ⟨hInvR, ?_, ?_⟩
      · intro y hy
        rw [hrootsR y hy, hroots1 y hy]
      · rw [hvalR, hroots1 _ hx1, hx1eq,
          hInv.root_parent (hInv.1 _ hx), hInv.root_parent hx]

/-- Linking one root under another distinct root preserves the forest
invariant, and reroots exactly the linked class. -/
theorem UFInv.link {n : ℕ} {parent : ℕ → ℕ} (h : UFInv n parent) {ra rb : ℕ}
    (hra : ra < n) (hrb : rb < n) (hfa : parent ra = ra) (hfb : parent rb = rb)
    (hne : ra ≠ rb) :
    UFInv n (Function.update parent rb ra)
      ∧ ∀ y, y < n → (Function.update parent rb ra)^[n] y =
          if parent^[n] y = rb then ra else parent^[n] y := by
  set p3 := Function.update parent rb ra with hp3def
  have hp3y : ∀ y, p3 y = if y = rb then ra else parent y := by
    intro y
    rw [hp3def, Function.update_apply]
  have hrootra : parent^[n] ra = ra := fix_stays hfa n
  have hrootrb : parent^[n] rb = rb := fix_stays hfb n
  have hInv3 : UFInv n p3 := by
    constructor
    · intro z hz
      rw [hp3y]
      by_cases hzb : z = rb
      · rw [if_pos hzb]
        exact hra
      · rw [if_neg hzb]
        exact h.1 _ hz
    · obtain ⟨rk, hrk⟩ := h.2
      refine ⟨fun y => if parent^[n] y = rb then rk y + rk ra + 1 else rk y, ?_⟩
      intro z hz hne3
      simp only [hp3y] at hne3 ⊢
      by_cases hzb : z = rb
      · subst hzb
        rw [if_pos rfl] at hne3 ⊢
        rw [hrootra, if_neg hne, hrootrb, if_pos rfl]
        omega
      · rw [if_neg hzb] at hne3 ⊢
        rw [h.root_parent hz]
        by_cases hc : parent^[n] z = rb
        · rw [if_pos hc, if_pos hc]
          have := hrk _ hz hne3
          omega
        · rw [if_neg hc, if_neg hc]
          exact hrk _ hz hne3
  refine ⟨hInv3, ?_⟩
  intro y hy
  have hfix3ra : p3 ra = ra := by
    rw [hp3y, if_neg (fun hcontra => hne hcontra)]
    exact hfa
  by_cases hc : parent^[n] y = rb
  · rw [if_pos hc]
    -- the chain from y first reaches rb, then p3 sends it to ra
    have hex : ∃ k, parent^[k] y = rb := ⟨n, hc⟩
    have hk0 := Nat.find_spec hex
    have hmin : ∀ m, m < Nat.find hex → parent^[m] y ≠ rb :=
      fun m hm => Nat.find_min hex hm
    -- below the first hit, p3 agrees with parent
    have hagree : ∀ i, i ≤ Nat.find hex → p3^[i] y = parent^[i] y := by
      intro i
      induction i with
      | zero => intro _; rfl
      | succ j ihj =>
        intro hij
        rw [Function.iterate_succ_apply', Function.iterate_succ_apply',
          ihj (by omega), hp3y, if_neg (hmin j (by omega))]
    have hreach3 : p3^[Nat.find hex + 1] y = ra := by
      rw [Function.iterate_succ_apply', hagree _ (le_refl _), hk0, hp3y, if_pos rfl]
    exact hInv3.root_eq_of_reach hy hfix3ra hreach3
  · rw [if_neg hc]
    -- the chain from y never visits rb, so p3 follows it unchanged
    have hnever : ∀ i, parent^[i] y ≠ rb := by
      intro i hcontra
      exact hc (h.root_eq_of_reach hy hfb hcontra)
    have hagree : ∀ i, p3^[i] y = parent^[i] y := by
      intro i
      induction i with
      | zero => rfl
      | succ j ihj =>
        rw [Function.iterate_succ_apply', Function.iterate_succ_apply', ihj,
          hp3y, if_neg (hnever j)]
    have hfix3 : p3 (parent^[n] y) = parent^[n] y := by
      rw [hp3y, if_neg hc]
      exact h.root_fix hy
    exact hInv3.root_eq_of_reach hy hfix3 (hagree n)


/-- Specification of `union(a, b)` in `build_graph`: the forest invariant is
preserved; the merge flag is set iff the two roots differed; and the merge
reroots exactly `b`'s old class onto `a`'s root, leaving all other roots
unchanged (path compression inside the two `find` calls changes no root). -/
theorem unionFind_spec (n : ℕ) (parent : ℕ → ℕ) (a b : ℕ) (hInv : UFInv n parent)
    (ha : a < n) (hb : b < n) :
    UFInv n (unionFind n parent a b).1
      ∧ ((unionFind n parent a b).2 = true ↔ parent^[n] a ≠ parent^[n] b)
      ∧ (∀ y, y < n → ((unionFind n parent a b).1)^[n] y =
          if (unionFind n parent a b).2 = true ∧ parent^[n] y = parent^[n] b
          then parent^[n] a else parent^[n] y) := by
  obtain ⟨k1, hk1, hfix1⟩ := hInv.fix_lt ha
  obtain ⟨hI1, hR1, hV1⟩ := findAux_spec n n parent a hInv ha ⟨k1, by omega, hfix1⟩
  obtain ⟨k2, hk2, hfix2⟩ := hI1.fix_lt hb
  obtain ⟨hI2, hR2, hV2⟩ :=
    findAux_spec n n (findAux n parent a).1 b hI1 hb ⟨k2, by omega, hfix2⟩
  have hva : (findAux n parent a).2 = parent^[n] a := hV1
  have hvb : (findAux n (findAux n parent a).1 b).2 = parent^[n] b := by
    rw [hV2, hR1 b hb]
  have hun : unionFind n parent a b =
      if (findAux n parent a).2 ≠ (findAux n (findAux n parent a).1 b).2 then
        (Function.update (findAux n (findAux n parent a).1 b).1
          (findAux n (findAux n parent a).1 b).2 (findAux n parent a).2, true)
      else ((findAux n (findAux n parent a).1 b).1, false) := rfl
  by_cases hroots : (findAux n parent a).2 = (findAux n (findAux n parent a).1 b).2
  · rw [hun, if_neg (not_not_intro hroots)]
    refine ⟨hI2, ?_, ?_⟩
    · rw [← hva, ← hvb]
      simp [hroots]
    · intro y hy
      rw [if_neg (by simp)]
      rw [hR2 y hy, hR1 y hy]
  · rw [hun, if_pos hroots]
    have hfroot : ∀ y, y < n →
        ((findAux n (findAux n parent a).1 b).1)^[n] y = parent^[n] y := by
      intro y hy
      rw [hR2 y hy, hR1 y hy]
    have hra : (findAux n parent a).2 < n := by
      rw [hva]
      exact hInv.iter_lt ha n
    have hrb : (findAux n (findAux n parent a).1 b).2 < n := by
      rw [hvb]
      exact hInv.iter_lt hb n
    have hfixa : (findAux n (findAux n parent a).1 b).1 (findAux n parent a).2
        = (findAux n parent a).2 := by
      have h1 := hI2.root_fix ha
      rw [hfroot a ha, ← hva] at h1
      exact h1
    have hfixb : (findAux n (findAux n parent a).1 b).1
          (findAux n (findAux n parent a).1 b).2
        = (findAux n (findAux n parent a).1 b).2 := by
      have h1 := hI2.root_fix hb
      rw [hfroot b hb, ← hvb] at h1
      exact h1
    obtain ⟨hI3, hV3⟩ := hI2.link hra hrb hfixa hfixb hroots
    refine ⟨hI3, ?_, ?_⟩
    · rw [← hva, ← hvb]
      simp [hroots]
    · intro y hy
      rw [hV3 y hy, hfroot y hy, hva, hvb]
      simp only [true_and]


/-- `getD` after `set` at the same (in-range) index. -/
theorem getD_set_self {α : Type} (l : List α) (i : ℕ) (x d : α)
    (h : i < l.length) : (l.set i x).getD i d = x := by
  rw [List.getD_eq_getElem?_getD, List.getElem?_set_self h]
  rfl

/-- `getD` after `set` at a different index. -/
theorem getD_set_ne {α : Type} (l : List α) {i j : ℕ} (x d : α) (h : i ≠ j) :
    (l.set i x).getD j d = l.getD j d := by
  rw [List.getD_eq_getElem?_getD, List.getElem?_set_ne h,
    ← List.getD_eq_getElem?_getD]

/-- Membership in a sorted insertion. -/
theorem mem_insertBy {α : Type} (le : α → α → Bool) (x a : α) :
    ∀ l : List α, a ∈ insertBy le x l ↔ a = x ∨ a ∈ l := by
  intro l
  induction l with
  | nil => simp [insertBy]
  | cons y ys ih =>
    unfold insertBy
    by_cases hle : le x y
    · rw [if_pos hle]
      simp [List.mem_cons]
    · rw [if_neg hle]
      simp only [List.mem_cons, ih]
      tauto

/-- Sorting preserves membership. -/
theorem mem_sortBy {α : Type} (le : α → α → Bool) (a : α) :
    ∀ l : List α, a ∈ sortBy le l ↔ a ∈ l := by
  intro l
  induction l with
  | nil => simp [sortBy]
  | cons y ys ih =>
    unfold sortBy
    rw [mem_insertBy, ih]
    simp [List.mem_cons]

/-- Invariant propagation through a list fold that only appends sanctioned
elements. -/
theorem foldl_mem_invariant {γ ε : Type} (P : ε → Prop) (step : List ε → γ → List ε) :
    ∀ (l : List γ) (acc : List ε),
      (∀ acc2 c, c ∈ l → ∀ e ∈ step acc2 c, e ∈ acc2 ∨ P e) →
      (∀ e ∈ acc, P e) → ∀ e ∈ l.foldl step acc, P e := by
  intro l
  induction l with
  | nil =>
    intro acc _ hacc e he
    exact hacc e he
  | cons c cs ih =>
    intro acc hstep hacc e he
    refine ih (step acc c)
      (fun acc2 c2 hc2 => hstep acc2 c2 (List.mem_cons_of_mem _ hc2)) ?_ e he
    intro e2 he2
    rcases hstep acc c (List.mem_cons_self _ _) e2 he2 with h | h
    · exact hacc e2 h
    · exact h

/-- Membership through `addEdge`. -/
theorem mem_addEdge (acc : List (ℕ × ℕ × Int)) (x e : ℕ × ℕ × Int) :
    e ∈ addEdge acc x → e ∈ acc ∨ e = x := by
  unfold addEdge
  by_cases hx : x ∈ acc
  · rw [if_pos hx]
    exact Or.inl
  · rw [if_neg hx]
    intro h
    rcases List.mem_append.mp h with h | h
    · exact Or.inl h
    · exact Or.inr (List.mem_singleton.mp h)

/-- Candidate edges only join valid room indices. -/
theorem candidateEdges_bounds (centers : List Int2) :
    ∀ e ∈ candidateEdges centers,
      e.1 < centers.length ∧ e.2.1 < centers.length := by
  unfold candidateEdges
  refine foldl_mem_invariant _ _ _ [] ?_ (by simp)
  intro acc2 i hi e he
  have hi' : i < centers.length := List.mem_range.mp hi
  unfold candFor at he
  refine foldl_mem_invariant (fun e => e ∈ acc2 ∨ (e.1 < centers.length ∧ e.2.1 < centers.length))
    _ _ acc2 ?_ (fun e2 he2 => Or.inl he2) e he
  intro acc3 dj hdj e2 he2
  rcases mem_addEdge acc3 _ e2 he2 with h | h
  · exact Or.inl h
  · right
    right
    have hj : dj.2 < centers.length := by
      have hdj2 := List.mem_of_mem_take hdj
      rw [mem_sortBy] at hdj2
      obtain ⟨j, hjmem, hjeq⟩ := List.mem_map.mp hdj2
      have hjr := List.mem_range.mp (List.mem_filter.mp hjmem).1
      rw [← hjeq]
      exact hjr
    subst h
    refine ⟨?_, ?_⟩
    · show min i dj.2 < centers.length
      omega
    · show max i dj.2 < centers.length
      omega

/-- Union of a symmetric step with one recorded edge, as closures: paths
either avoid the new edge or split at its endpoints. -/
theorem rtg_add_edge (r : ℕ → ℕ → Prop) (a b : ℕ) (u v : ℕ) :
    Relation.ReflTransGen
        (fun x y => r x y ∨ (x = a ∧ y = b) ∨ (x = b ∧ y = a)) u v
      ↔ Relation.ReflTransGen r u v
        ∨ (Relation.ReflTransGen r u a ∧ Relation.ReflTransGen r b v)
        ∨ (Relation.ReflTransGen r u b ∧ Relation.ReflTransGen r a v) := by
  constructor
  · intro h
    induction h with
    | refl => exact Or.inl .refl
    | tail huw hstep ih =>
      rcases hstep with hs | ⟨hw, hv⟩ | ⟨hw, hv⟩
      · rcases ih with h1 | ⟨h1, h2⟩ | ⟨h1, h2⟩
        · exact Or.inl (h1.tail hs)
        · exact Or.inr (Or.inl ⟨h1, h2.tail hs⟩)
        · exact Or.inr (Or.inr ⟨h1, h2.tail hs⟩)
      · subst hw
        subst hv
        rcases ih with h1 | ⟨h1, h2⟩ | ⟨h1, h2⟩
        · exact Or.inr (Or.inl ⟨h1, .refl⟩)
        · exact Or.inr (Or.inl ⟨h1, .refl⟩)
        · exact Or.inl h1
      · subst hw
        subst hv
        rcases ih with h1 | ⟨h1, h2⟩ | ⟨h1, h2⟩
        · exact Or.inr (Or.inr ⟨h1, .refl⟩)
        · exact Or.inl h1
        · exact Or.inr (Or.inr ⟨h1, .refl⟩)
  · intro h
    have hstep : ∀ x y, r x y →
        Relation.ReflTransGen
          (fun x y => r x y ∨ (x = a ∧ y = b) ∨ (x = b ∧ y = a)) x y :=
      fun x y hxy => Relation.ReflTransGen.single (Or.inl hxy)
    have hmono : ∀ x y, Relation.ReflTransGen r x y →
        Relation.ReflTransGen
          (fun x y => r x y ∨ (x = a ∧ y = b) ∨ (x = b ∧ y = a)) x y := by
      intro x y hxy
      induction hxy with
      | refl => exact .refl
      | tail _ hs ih => exact ih.tail (Or.inl hs)
    rcases h with h1 | ⟨h1, h2⟩ | ⟨h1, h2⟩
    · exact hmono _ _ h1
    · exact ((hmono _ _ h1).tail (Or.inr (Or.inl ⟨rfl, rfl⟩))).trans (hmono _ _ h2)
    · exact ((hmono _ _ h1).tail (Or.inr (Or.inr ⟨rfl, rfl⟩))).trans (hmono _ _ h2)

/-- Rerouting one class in a root assignment joins exactly that class. -/
theorem link_root_iff {ra rb : ℕ} (hne : ra ≠ rb) (ru rv : ℕ) :
    ((if ru = rb then ra else ru) = (if rv = rb then ra else rv))
      ↔ (ru = rv ∨ (ru = ra ∧ rv = rb) ∨ (ru = rb ∧ rv = ra)) := by
  by_cases hu : ru = rb <;> by_cases hv : rv = rb <;>
    simp [hu, hv] <;> omega

/-- Rerouting one class shrinks the root image by exactly the old class
root. -/
theorem image_link (n : ℕ) (oldr : ℕ → ℕ) (ra rb : ℕ) (hne : ra ≠ rb)
    (a : ℕ) (ha : a < n) (hra : oldr a = ra) :
    (Finset.range n).image (fun y => if oldr y = rb then ra else oldr y)
      = ((Finset.range n).image oldr).erase rb := by
  ext r2
  simp only [Finset.mem_image, Finset.mem_erase, Finset.mem_range]
  constructor
  · rintro ⟨y, hy, hval⟩
    by_cases hc : oldr y = rb
    · rw [if_pos hc] at hval
      exact ⟨hval ▸ hne, ⟨a, ha, hra.trans hval⟩⟩
    · rw [if_neg hc] at hval
      exact ⟨hval ▸ hc, ⟨y, hy, hval⟩⟩
  · rintro ⟨hne2, y, hy, hval⟩
    have hcc : ¬oldr y = rb := fun hcon => hne2 (by rw [← hval]; exact hcon)
    refine ⟨y, hy, ?_⟩
    rw [if_neg hcc]
    exact hval

/-- `recordEdge` preserves the room count. -/
theorem recordEdge_length (rooms : List Room) (a b : ℕ) :
    (recordEdge rooms a b).length = rooms.length := by
  simp [recordEdge]

/-- Adjacency after recording an accepted edge: the old adjacency plus the
new pair in both orientations. -/
theorem connAdj_recordEdge (rooms : List Room) (a b : ℕ)
    (ha : a < rooms.length) (hb : b < rooms.length) (hab : a ≠ b) (u v : ℕ) :
    connAdj (recordEdge rooms a b) u v
      ↔ connAdj rooms u v ∨ (u = a ∧ v = b) ∨ (u = b ∧ v = a) := by
  have hlen1 : (rooms.set a
      ⟨(rooms.getD a defaultRoom).rects,
        insert b (rooms.getD a defaultRoom).connections⟩).length = rooms.length := by
    simp
  unfold connAdj recordEdge
  by_cases hub : u = b
  · subst hub
    rw [getD_set_self _ _ _ _ (by rw [hlen1]; exact hb), getD_set_ne _ _ _ hab]
    simp only [Finset.mem_insert]
    tauto
  · rw [getD_set_ne _ _ _ (fun hcontra => hub hcontra.symm)]
    by_cases hua : u = a
    · subst hua
      rw [getD_set_self _ _ _ _ ha]
      simp only [Finset.mem_insert]
      tauto
    · rw [getD_set_ne _ _ _ (fun hcontra => hua hcontra.symm)]
      tauto


/-- Closures of pointwise-equivalent relations agree. -/
theorem rtg_congr {r s : ℕ → ℕ → Prop} (h : ∀ x y, r x y ↔ s x y) (u v : ℕ) :
    Relation.ReflTransGen r u v ↔ Relation.ReflTransGen s u v := by
  constructor
  · intro hr
    induction hr with
    | refl => exact .refl
    | tail _ hstep ih => exact ih.tail ((h _ _).mp hstep)
  · intro hs
    induction hs with
    | refl => exact .refl
    | tail _ hstep ih => exact ih.tail ((h _ _).mpr hstep)

/-- Main invariant propagation of the Kruskal loop of `build_graph`: the
`GraphInv` invariant survives the whole edge list; the room count is kept;
components only coarsen; and after the loop both endpoints of every processed
edge share a root (accepted or rejected alike). -/
theorem processEdges_spec (n : ℕ) :
    ∀ (edges : List (ℕ × ℕ × Int)) (parent : ℕ → ℕ) (rooms : List Room)
      (acc : List (ℕ × ℕ)),
      GraphInv n parent rooms acc → rooms.length = n →
      (∀ e ∈ edges, e.1 < n ∧ e.2.1 < n) →
      GraphInv n (processEdges n edges parent rooms acc).1
          (processEdges n edges parent rooms acc).2.1
          (processEdges n edges parent rooms acc).2.2
        ∧ (processEdges n edges parent rooms acc).2.1.length = n
        ∧ (∀ u v, u < n → v < n → parent^[n] u = parent^[n] v →
            ((processEdges n edges parent rooms acc).1)^[n] u =
              ((processEdges n edges parent rooms acc).1)^[n] v)
        ∧ ∀ e ∈ edges,
            ((processEdges n edges parent rooms acc).1)^[n] e.1 =
              ((processEdges n edges parent rooms acc).1)^[n] e.2.1 := by
  intro edges
  induction edges with
  | nil =>
    intro parent rooms acc hG hlen _
    exact ⟨hG, hlen, fun u v _ _ h => h, by simp⟩
  | cons e rest ih =>
    intro parent rooms acc hG hlen hbnd
    obtain ⟨hUF, hsym, hbound, hmatch, hcount⟩ := hG
    obtain ⟨ha, hb⟩ := hbnd e (List.mem_cons_self _ _)
    obtain ⟨hIu, hflag, hmap⟩ := unionFind_spec n parent e.1 e.2.1 hUF ha hb
    by_cases hok : (unionFind n parent e.1 e.2.1).2 = true
    · have heq : processEdges n (e :: rest) parent rooms acc =
          processEdges n rest (unionFind n parent e.1 e.2.1).1
            (recordEdge rooms e.1 e.2.1) (acc ++ [(e.1, e.2.1)]) := by
        simp only [processEdges]
        rw [if_pos hok]
      have hrootne : parent^[n] e.1 ≠ parent^[n] e.2.1 := hflag.mp hok
      have hab : e.1 ≠ e.2.1 := fun hcon => hrootne (by rw [hcon])
      have hmap' : ∀ y, y < n → ((unionFind n parent e.1 e.2.1).1)^[n] y =
          if parent^[n] y = parent^[n] e.2.1 then parent^[n] e.1
          else parent^[n] y := by
        intro y hy
        rw [hmap y hy]
        simp only [hok, true_and]
      have hadj2 : ∀ x y, connAdj (recordEdge rooms e.1 e.2.1) x y ↔
          (connAdj rooms x y ∨ (x = e.1 ∧ y = e.2.1) ∨ (x = e.2.1 ∧ y = e.1)) :=
        fun x y => connAdj_recordEdge rooms e.1 e.2.1
          (by rw [hlen]; exact ha) (by rw [hlen]; exact hb) hab x y
      have hsym2 : ∀ u v, connAdj (recordEdge rooms e.1 e.2.1) u v →
          connAdj (recordEdge rooms e.1 e.2.1) v u := by
        intro u v h
        rw [hadj2] at h ⊢
        rcases h with h | h | h
        · exact Or.inl (hsym _ _ h)
        · exact Or.inr (Or.inr ⟨h.2, h.1⟩)
        · exact Or.inr (Or.inl ⟨h.2, h.1⟩)
      have hbound2 : ∀ u v, connAdj (recordEdge rooms e.1 e.2.1) u v →
          u < n ∧ v < n := by
        intro u v h
        rw [hadj2] at h
        rcases h with h | ⟨h1, h2⟩ | ⟨h1, h2⟩
        · exact hbound _ _ h
        · subst h1
          subst h2
          exact ⟨ha, hb⟩
        · subst h1
          subst h2
          exact ⟨hb, ha⟩
      have hsymR : ∀ x y, Relation.ReflTransGen (connAdj rooms) x y →
          Relation.ReflTransGen (connAdj rooms) y x :=
        fun x y hxy =>
          Relation.ReflTransGen.symmetric (fun p q hpq => hsym p q hpq) hxy
      have hmatch2 : ∀ u v, u < n → v < n →
          (((unionFind n parent e.1 e.2.1).1)^[n] u =
              ((unionFind n parent e.1 e.2.1).1)^[n] v ↔
            Relation.ReflTransGen (connAdj (recordEdge rooms e.1 e.2.1)) u v) := by
        intro u v hu hv
        rw [hmap' u hu, hmap' v hv, link_root_iff hrootne,
          rtg_congr hadj2, rtg_add_edge (connAdj rooms) e.1 e.2.1]
        have h1 := hmatch u v hu hv
        have h2 := hmatch u e.1 hu ha
        have h3 := hmatch v e.2.1 hv hb
        have h4 := hmatch u e.2.1 hu hb
        have h5 := hmatch v e.1 hv ha
        constructor
        · rintro (hc | ⟨hc1, hc2⟩ | ⟨hc1, hc2⟩)
          · exact Or.inl (h1.mp hc)
          · exact Or.inr (Or.inl ⟨h2.mp hc1, hsymR _ _ (h3.mp hc2)⟩)
          · exact Or.inr (Or.inr ⟨h4.mp hc1, hsymR _ _ (h5.mp hc2)⟩)
        · rintro (hc | ⟨hc1, hc2⟩ | ⟨hc1, hc2⟩)
          · exact Or.inl (h1.mpr hc)
          · exact Or.inr (Or.inl ⟨h2.mpr hc1, h3.mpr (hsymR _ _ hc2)⟩)
          · exact Or.inr (Or.inr ⟨h4.mpr hc1, h5.mpr (hsymR _ _ hc2)⟩)
      have himg : (Finset.range n).image
            (fun y => ((unionFind n parent e.1 e.2.1).1)^[n] y)
          = ((Finset.range n).image (fun y => parent^[n] y)).erase
              (parent^[n] e.2.1) := by
        have hcg : (Finset.range n).image
              (fun y => ((unionFind n parent e.1 e.2.1).1)^[n] y)
            = (Finset.range n).image
                (fun y => if parent^[n] y = parent^[n] e.2.1
                  then parent^[n] e.1 else parent^[n] y) :=
          Finset.image_congr (fun x hx => hmap' x (Finset.mem_range.mp hx))
        rw [hcg]
        exact image_link n (fun y => parent^[n] y) (parent^[n] e.1)
          (parent^[n] e.2.1) hrootne e.1 ha rfl
      have hmem : parent^[n] e.2.1 ∈
          (Finset.range n).image (fun y => parent^[n] y) :=
        Finset.mem_image.mpr ⟨e.2.1, Finset.mem_range.mpr hb, rfl⟩
      have hcount2 : ((Finset.range n).image
            (fun y => ((unionFind n parent e.1 e.2.1).1)^[n] y)).card
          + (acc ++ [(e.1, e.2.1)]).length = n := by
        rw [himg, List.length_append, Finset.card_erase_of_mem hmem]
        have hpos : 0 < ((Finset.range n).image (fun y => parent^[n] y)).card :=
          Finset.card_pos.mpr ⟨_, hmem⟩
        simp only [List.length_singleton]
        omega
      have hmono1 : ∀ u v, u < n → v < n → parent^[n] u = parent^[n] v →
          ((unionFind n parent e.1 e.2.1).1)^[n] u =
            ((unionFind n parent e.1 e.2.1).1)^[n] v := by
        intro u v hu hv h
        rw [hmap' u hu, hmap' v hv, h]
      have hhead : ((unionFind n parent e.1 e.2.1).1)^[n] e.1
          = ((unionFind n parent e.1 e.2.1).1)^[n] e.2.1 := by
        rw [hmap' e.1 ha, hmap' e.2.1 hb, if_neg hrootne, if_pos rfl]
      obtain ⟨hGr, hlenr, hmonor, hedger⟩ := ih (unionFind n parent e.1 e.2.1).1
        (recordEdge rooms e.1 e.2.1) (acc ++ [(e.1, e.2.1)])
        ⟨hIu, hsym2, hbound2, hmatch2, hcount2⟩
        (by rw [recordEdge_length, hlen])
        (fun e2 he2 => hbnd e2 (List.mem_cons_of_mem _ he2))
      rw [heq]
      refine ⟨hGr, hlenr, ?_, ?_⟩
      · intro u v hu hv h
        exact hmonor u v hu hv (hmono1 u v hu hv h)
      · intro e2 he2
        rcases List.mem_cons.mp he2 with he2 | he2
        · subst he2
          exact hmonor _ _ ha hb hhead
        · exact hedger e2 he2
    · have heq : processEdges n (e :: rest) parent rooms acc =
          processEdges n rest (unionFind n parent e.1 e.2.1).1 rooms acc := by
        simp only [processEdges]
        rw [if_neg hok]
      have hroots_eq : parent^[n] e.1 = parent^[n] e.2.1 :=
        not_not.mp (fun hne => hok (hflag.mpr hne))
      have hmap0 : ∀ y, y < n → ((unionFind n parent e.1 e.2.1).1)^[n] y =
          parent^[n] y := by
        intro y hy
        rw [hmap y hy, if_neg]
        rintro ⟨hc, _⟩
        exact hok hc
      have hmatch0 : ∀ u v, u < n → v < n →
          (((unionFind n parent e.1 e.2.1).1)^[n] u =
              ((unionFind n parent e.1 e.2.1).1)^[n] v ↔
            Relation.ReflTransGen (connAdj rooms) u v) := by
        intro u v hu hv
        rw [hmap0 u hu, hmap0 v hv]
        exact hmatch u v hu hv
      have hcount0 : ((Finset.range n).image
            (fun y => ((unionFind n parent e.1 e.2.1).1)^[n] y)).card
          + acc.length = n := by
        have hcg : (Finset.range n).image
              (fun y => ((unionFind n parent e.1 e.2.1).1)^[n] y)
            = (Finset.range n).image (fun y => parent^[n] y) :=
          Finset.image_congr (fun x hx => hmap0 x (Finset.mem_range.mp hx))
        rw [hcg]
        exact hcount
      obtain ⟨hGr, hlenr, hmonor, hedger⟩ := ih (unionFind n parent e.1 e.2.1).1
        rooms acc ⟨hIu, hsym, hbound, hmatch0, hcount0⟩ hlen
        (fun e2 he2 => hbnd e2 (List.mem_cons_of_mem _ he2))
      rw [heq]
      refine ⟨hGr, hlenr, ?_, ?_⟩
      · intro u v hu hv h
        refine hmonor u v hu hv ?_
        rw [hmap0 u hu, hmap0 v hv]
        exact h
      · intro e2 he2
        rcases List.mem_cons.mp he2 with he2 | he2
        · subst he2
          refine hmonor _ _ ha hb ?_
          rw [hmap0 _ ha, hmap0 _ hb]
          exact hroots_eq
        · exact hedger e2 he2


/-- The identity map is a fixed point of iteration. -/
theorem iterate_id_apply : ∀ (k y : ℕ), (fun x : ℕ => x)^[k] y = y := by
  intro k
  induction k with
  | zero => intro y; rfl
  | succ m ihm =>
    intro y
    rw [Function.iterate_succ_apply]
    exact ihm y

/-- The starting state of `build_graph` satisfies the loop invariant whenever
the rooms' connection sets are empty (as `Room.__init__` guarantees). -/
theorem graphInv_init (rooms : List Room)
    (hempty : ∀ room ∈ rooms, room.connections = ∅) :
    GraphInv rooms.length (fun x => x) rooms [] := by
  have hadj : ∀ u v, ¬connAdj rooms u v := by
    intro u v h
    unfold connAdj at h
    by_cases hu : u < rooms.length
    · have hg : rooms.getD u defaultRoom = rooms[u] := by
        rw [List.getD_eq_getElem?_getD, List.getElem?_eq_getElem hu, Option.getD_some]
      rw [hg, hempty _ (List.getElem_mem hu)] at h
      exact Finset.not_mem_empty v h
    · have hg : rooms.getD u defaultRoom = defaultRoom := by
        rw [List.getD_eq_getElem?_getD, List.getElem?_eq_none (by omega), Option.getD_none]
      rw [hg] at h
      exact Finset.not_mem_empty v h
  refine ⟨⟨fun x hx => hx, ⟨fun _ => 0, fun x _ hcontra => absurd rfl hcontra⟩⟩,
    fun u v h => absurd h (hadj u v), fun u v h => absurd h (hadj u v), ?_, ?_⟩
  · intro u v hu hv
    rw [iterate_id_apply, iterate_id_apply]
    constructor
    · intro h
      subst h
      exact .refl
    · intro h
      induction h with
      | refl => rfl
      | tail _ hstep _ => exact absurd hstep (hadj _ _)
  · have himg : (Finset.range rooms.length).image
        (fun y => (fun x : ℕ => x)^[rooms.length] y) = Finset.range rooms.length := by
      ext r2
      simp only [Finset.mem_image, Finset.mem_range]
      constructor
      · rintro ⟨y, hy, hval⟩
        rw [iterate_id_apply] at hval
        omega
      · intro h
        exact ⟨r2, h, iterate_id_apply _ _⟩
    rw [himg, Finset.card_range]
    simp

/-- Outcome of the Kruskal loop on `build_graph`'s actual call: the loop
invariant holds of the final state, and every candidate edge ends with both
endpoints in one component. -/
theorem buildGraphFull_spec (rooms : List Room)
    (hempty : ∀ room ∈ rooms, room.connections = ∅) :
    GraphInv rooms.length (buildGraphFull rooms).1 (buildGraphFull rooms).2.1
        (buildGraphFull rooms).2.2
      ∧ ∀ e ∈ sortBy weightLe (candidateEdges (rooms.map Room.center)),
          ((buildGraphFull rooms).1)^[rooms.length] e.1 =
            ((buildGraphFull rooms).1)^[rooms.length] e.2.1 := by
  have hcb : ∀ e ∈ sortBy weightLe (candidateEdges (rooms.map Room.center)),
      e.1 < rooms.length ∧ e.2.1 < rooms.length := by
    intro e he
    rw [mem_sortBy] at he
    have hrb := candidateEdges_bounds (rooms.map Room.center) e he
    rw [List.length_map] at hrb
    exact hrb
  obtain ⟨hGr, _, _, hedger⟩ := processEdges_spec rooms.length
    (sortBy weightLe (candidateEdges (rooms.map Room.center)))
    (fun x => x) rooms [] (graphInv_init rooms hempty) rfl hcb
  exact ⟨hGr, hedger⟩

/-- C1: provided the K-nearest-neighbour candidate edge graph over room
centers is connected, `build_graph` accepts exactly `n - 1` edges for `n`
rooms — an edge is accepted iff its union-find union joins two previously
distinct components, which is literally how `processEdges` accumulates
`acceptedEdges` — and the resulting connection relation makes every room
reachable from every other room.  Two hypotheses record the call context:
the rooms' connection sets start empty (`Room.__init__`), and there are at
least two rooms (with a single room the source raises an IndexError in a
debug print before the loop, so the claim is about `n ≥ 2`). -/
theorem buildGraph_spanning (rooms : List Room) (hn : 1 < rooms.length)
    (hempty : ∀ room ∈ rooms, room.connections = ∅)
    (hconn : ∀ i j, i < rooms.length → j < rooms.length →
      Relation.ReflTransGen (candAdj (candidateEdges (rooms.map Room.center))) i j) :
    (acceptedEdges rooms).length + 1 = rooms.length
      ∧ ∀ i j, i < rooms.length → j < rooms.length →
          Relation.ReflTransGen (connAdj (buildGraph rooms)) i j := by
  obtain ⟨hGr, hedger⟩ := buildGraphFull_spec rooms hempty
  obtain ⟨hUF2, hsym2, hbound2, hmatch2, hcount2⟩ := hGr
  have hstep : ∀ u v, candAdj (candidateEdges (rooms.map Room.center)) u v →
      ((buildGraphFull rooms).1)^[rooms.length] u =
        ((buildGraphFull rooms).1)^[rooms.length] v := by
    intro u v h
    rcases h with ⟨w, hw⟩ | ⟨w, hw⟩
    · exact hedger (u, v, w) ((mem_sortBy _ _ _).mpr hw)
    · exact (hedger (v, u, w) ((mem_sortBy _ _ _).mpr hw)).symm
  have hsame : ∀ i j, i < rooms.length → j < rooms.length →
      ((buildGraphFull rooms).1)^[rooms.length] i =
        ((buildGraphFull rooms).1)^[rooms.length] j := by
    intro i j hi hj
    have hrtg := hconn i j hi hj
    clear hi hj
    induction hrtg with
    | refl => rfl
    | tail _ hs ihs => exact ihs.trans (hstep _ _ hs)
  constructor
  · have himg1 : (Finset.range rooms.length).image
        (fun y => ((buildGraphFull rooms).1)^[rooms.length] y)
        = {((buildGraphFull rooms).1)^[rooms.length] 0} := by
      ext r2
      simp only [Finset.mem_image, Finset.mem_range, Finset.mem_singleton]
      constructor
      · rintro ⟨y, hy, hval⟩
        rw [← hval]
        exact hsame y 0 hy (by omega)
      · intro h
        exact ⟨0, by omega, h.symm⟩
    rw [himg1, Finset.card_singleton] at hcount2
    have hacc : acceptedEdges rooms = (buildGraphFull rooms).2.2 := rfl
    rw [hacc]
    omega
  · intro i j hi hj
    exact (hmatch2 i j hi hj).mp (hsame i j hi hj)

/-- Witness for C1 on two concrete rooms: the single candidate edge is
accepted (1 = 2 - 1) and both rooms reach each other. -/
theorem buildGraph_spanning_witness :
    ((1 < ([Room.mk [Rect.mk 0 0 4 4] ∅, Room.mk [Rect.mk 10 0 4 4] ∅] : List Room).length)
      ∧ ∀ room ∈ ([Room.mk [Rect.mk 0 0 4 4] ∅, Room.mk [Rect.mk 10 0 4 4] ∅] : List Room),
          room.connections = ∅)
      ∧ ((acceptedEdges [Room.mk [Rect.mk 0 0 4 4] ∅, Room.mk [Rect.mk 10 0 4 4] ∅]).length + 1
            = ([Room.mk [Rect.mk 0 0 4 4] ∅, Room.mk [Rect.mk 10 0 4 4] ∅] : List Room).length
          ∧ ∀ i j, i < ([Room.mk [Rect.mk 0 0 4 4] ∅,
                Room.mk [Rect.mk 10 0 4 4] ∅] : List Room).length →
              j < ([Room.mk [Rect.mk 0 0 4 4] ∅,
                Room.mk [Rect.mk 10 0 4 4] ∅] : List Room).length →
              Relation.ReflTransGen
                (connAdj (buildGraph [Room.mk [Rect.mk 0 0 4 4] ∅,
                  Room.mk [Rect.mk 10 0 4 4] ∅])) i j) :=
  ⟨⟨by decide, by decide⟩,
    buildGraph_spanning [Room.mk [Rect.mk 0 0 4 4] ∅, Room.mk [Rect.mk 10 0 4 4] ∅]
      (by decide) (by decide)
      (by
        intro i j hi hj
        have hi2 : i < 2 := by simpa using hi
        have hj2 : j < 2 := by simpa using hj
        interval_cases i <;> interval_cases j
        · exact .refl
        · exact Relation.ReflTransGen.single (Or.inl ⟨10, by decide⟩)
        · exact Relation.ReflTransGen.single (Or.inr ⟨10, by decide⟩)
        · exact .refl)⟩

/-- C7: after `build_graph` completes (on rooms whose connection sets start
empty, as `Room.__init__` guarantees), the connection relation is symmetric:
`i ∈ rooms[j].connections` iff `j ∈ rooms[i].connections` — accepted edges
are always recorded on both endpoints. -/
theorem buildGraph_symmetric (rooms : List Room)
    (hempty : ∀ room ∈ rooms, room.connections = ∅) (i j : ℕ) :
    i ∈ ((buildGraph rooms).getD j defaultRoom).connections ↔
      j ∈ ((buildGraph rooms).getD i defaultRoom).connections := by
  obtain ⟨hGr, _⟩ := buildGraphFull_spec rooms hempty
  exact ⟨fun h => hGr.2.1 j i h, fun h => hGr.2.1 i j h⟩

/-- Witness for C7 on two concrete rooms at indices 0 and 1. -/
theorem buildGraph_symmetric_witness :
    (∀ room ∈ ([Room.mk [Rect.mk 0 0 4 4] ∅, Room.mk [Rect.mk 10 0 4 4] ∅] : List Room),
        room.connections = ∅)
      ∧ (0 ∈ ((buildGraph [Room.mk [Rect.mk 0 0 4 4] ∅,
            Room.mk [Rect.mk 10 0 4 4] ∅]).getD 1 defaultRoom).connections ↔
          1 ∈ ((buildGraph [Room.mk [Rect.mk 0 0 4 4] ∅,
            Room.mk [Rect.mk 10 0 4 4] ∅]).getD 0 defaultRoom).connections) :=
  ⟨by decide,
    buildGraph_symmetric [Room.mk [Rect.mk 0 0 4 4] ∅, Room.mk [Rect.mk 10 0 4 4] ∅]
      (by decide) 0 1⟩

end Dungeon
